import Mathlib

/-!
Verification of the board engine of a minesweeper-style game
("proxx": find the holes, avoid the black holes).

The Lean definitions below are a shallow embedding of `proxx_game.py`:
`GameStatus`, `Coord`, `Cell`, the `HolesGenerator` candidate enumeration,
and the `Board` class with hole placement, adjacency computation and the
worklist-based reveal (flood fill).  Python's mutable 2D list of cells is
modelled as a function `Coord → Cell` updated pointwise; Python integers
are `Int`.  The only part not taken from the source is the call to the
standard library's `random.sample`, which is modelled from the spec as a
predicate on its possible return values (`IsSample`).
-/

/-- Game status enum from the source (`IN_GAME`, `LOST`, `WIN`). -/
inductive GameStatus where
  | IN_GAME : GameStatus
  | LOST : GameStatus
  | WIN : GameStatus
deriving DecidableEq

/-- Constant `SMALLEST_BOARD_SIZE = 3` from the source. -/
def SMALLEST_BOARD_SIZE : Int := 3

/-- The `Coord` named tuple: an immutable (x, y) pair, equality by value. -/
structure Coord where
  x : Int
  y : Int
deriving DecidableEq

/-- A `Cell`: per-cell state with defaults `is_hole = False`,
`holes_around = 0`, `is_opened = False`. -/
structure Cell where
  is_hole : Bool := false
  holes_around : Nat := 0
  is_opened : Bool := false
deriving DecidableEq

/-- A `Board`: width, height, status, counter of still-closed safe cells and
the grid, modelled as a total function from coordinates to cells
(the Python 2D list indexed `[y][x]`). -/
structure Board where
  width : Int
  height : Int
  status : GameStatus
  cells_to_open : Int
  grid : Coord → Cell

/-- Lookup `Board.at`: cell access `self.board[coord.y][coord.x]`. -/
def Board.at (b : Board) (coord : Coord) : Cell := b.grid coord

/-- Pointwise grid update: the effect of mutating one cell object in place. -/
def Board.setCell (b : Board) (coord : Coord) (cell : Cell) : Board :=
  { b with grid := fun d => if d = coord then cell else b.grid d }

/-- In-bounds predicate `0 ≤ x < width ∧ 0 ≤ y < height`. -/
def Board.inBounds (b : Board) (c : Coord) : Prop :=
  0 ≤ c.x ∧ c.x < b.width ∧ 0 ≤ c.y ∧ c.y < b.height

instance (b : Board) (c : Coord) : Decidable (b.inBounds c) := by
  unfold Board.inBounds; infer_instance

/-- The `Board.neighbors` constant: the pre-calculated relative coordinates of adjacent
cells, in the order of the Python comprehension
(`for x in range(-1, 2) for y in range(-1, 2) if not (x == 0 and y == 0)`). -/
def Board.neighbors : List Coord :=
  ((List.range 3).map (fun i => (i : Int) - 1)).flatMap (fun x =>
    ((List.range 3).map (fun i => (i : Int) - 1)).filterMap (fun y =>
      if x = 0 ∧ y = 0 then none else some ⟨x, y⟩))

/-- Method `Board._get_adjacent_coords`: all 8 neighbor offsets applied to `coord`,
keeping only those inside the board. -/
def Board.get_adjacent_coords (b : Board) (coord : Coord) : List Coord :=
  (Board.neighbors.map (fun n => (⟨n.x + coord.x, n.y + coord.y⟩ : Coord))).filter
    (fun a => decide (¬(a.x < 0 ∨ b.width ≤ a.x ∨ a.y < 0 ∨ b.height ≤ a.y)))

/-- Method `Board._get_adjacent_cells`. -/
def Board.get_adjacent_cells (b : Board) (coord : Coord) : List Cell :=
  (b.get_adjacent_coords coord).map (fun c => b.at c)

/-- Method `Board._open_cell`: if the cell is already opened do nothing; otherwise
mark it opened, decrement `cells_to_open`, and set status to `WIN` when the
counter reaches zero. -/
def Board.open_cell (b : Board) (coord : Coord) : Board :=
  let cell := b.at coord
  if cell.is_opened then b
  else
    let b1 := b.setCell coord { cell with is_opened := true }
    let b2 := { b1 with cells_to_open := b1.cells_to_open - 1 }
    if b2.cells_to_open = 0 then { b2 with status := GameStatus.WIN } else b2

/-- One iteration of the `_open_cells` worklist loop: open the dequeued
coordinate; if its cell has a nonzero `holes_around` stop expanding,
otherwise collect the in-bounds neighbors that are neither holes nor
already opened.  Returns the new board and the list of coordinates to
enqueue. -/
def Board.process_one (b : Board) (coord : Coord) : Board × List Coord :=
  let b1 := b.open_cell coord
  if (b1.at coord).holes_around ≠ 0 then (b1, [])
  else
    (b1, (b1.get_adjacent_coords coord).filter
      (fun a => !(b1.at a).is_hole && !(b1.at a).is_opened))

/-- The finite set of in-bounds coordinates of a board. -/
def Board.allCoords (b : Board) : Finset Coord :=
  (Finset.range b.width.toNat ×ˢ Finset.range b.height.toNat).image
    (fun p => (⟨(p.1 : Int), (p.2 : Int)⟩ : Coord))

/-- Termination measure, first component: the number of cells that are
still unopened, among in-bounds cells and cells mentioned in the queue. -/
def Board.measU (b : Board) (queue : List Coord) : Nat :=
  ((b.allCoords ∪ queue.toFinset).filter (fun c => (b.at c).is_opened = false)).card

/-- Termination measure, second component: the number of queue entries
whose cell is already opened. -/
def Board.measQo (b : Board) (queue : List Coord) : Nat :=
  queue.countP (fun c => (b.at c).is_opened)

theorem Board.mem_allCoords (b : Board) (c : Coord) :
    c ∈ b.allCoords ↔ b.inBounds c := by
  obtain ⟨cx, cy⟩ := c
  simp only [Board.allCoords, Finset.mem_image, Finset.mem_product, Finset.mem_range,
    Board.inBounds, Coord.mk.injEq]
  constructor
  · rintro ⟨⟨i, j⟩, ⟨hi, hj⟩, rfl, rfl⟩
    have hi' : i < b.width.toNat := hi
    have hj' : j < b.height.toNat := hj
    refine ⟨by omega, by omega, by omega, by omega⟩
  · rintro ⟨h1, h2, h3, h4⟩
    exact ⟨⟨cx.toNat, cy.toNat⟩,
      ⟨show cx.toNat < b.width.toNat by omega, show cy.toNat < b.height.toNat by omega⟩,
      show (cx.toNat : Int) = cx by omega, show (cy.toNat : Int) = cy by omega⟩

theorem Board.open_cell_width (b : Board) (c : Coord) :
    (b.open_cell c).width = b.width := by
  unfold Board.open_cell Board.setCell
  dsimp only
  split
  · rfl
  · split <;> rfl

theorem Board.open_cell_height (b : Board) (c : Coord) :
    (b.open_cell c).height = b.height := by
  unfold Board.open_cell Board.setCell
  dsimp only
  split
  · rfl
  · split <;> rfl

theorem Board.open_cell_at (b : Board) (c d : Coord) :
    (b.open_cell c).at d =
      if d = c ∧ (b.at c).is_opened = false
      then { b.at c with is_opened := true } else b.at d := by
  unfold Board.open_cell Board.setCell Board.at
  dsimp only
  by_cases h : (b.grid c).is_opened
  · rw [if_pos h]
    rw [if_neg]
    rintro ⟨rfl, h2⟩
    rw [h] at h2
    exact Bool.true_eq_false.mp h2
  · rw [if_neg h]
    split
    · dsimp only
      by_cases hd : d = c
      · subst hd
        rw [if_pos rfl, if_pos ⟨rfl, by simpa using h⟩]
      · rw [if_neg hd, if_neg (by rintro ⟨h1, _⟩; exact hd h1)]
    · dsimp only
      by_cases hd : d = c
      · subst hd
        rw [if_pos rfl, if_pos ⟨rfl, by simpa using h⟩]
      · rw [if_neg hd, if_neg (by rintro ⟨h1, _⟩; exact hd h1)]

theorem Board.open_cell_opened_iff (b : Board) (c d : Coord) :
    ((b.open_cell c).at d).is_opened = ((b.at d).is_opened || decide (d = c)) := by
  rw [Board.open_cell_at]
  by_cases hd : d = c
  · subst hd
    by_cases h : (b.at d).is_opened
    · rw [if_neg (by rintro ⟨_, h2⟩; rw [h] at h2; exact Bool.true_eq_false.mp h2)]
      simp [h]
    · rw [if_pos ⟨rfl, by simpa using h⟩]
      simp
  · rw [if_neg (by rintro ⟨h1, _⟩; exact hd h1)]
    simp [hd]

theorem Board.open_cell_static (b : Board) (c d : Coord) :
    ((b.open_cell c).at d).is_hole = ((b.at d).is_hole) ∧
    ((b.open_cell c).at d).holes_around = ((b.at d).holes_around) := by
  rw [Board.open_cell_at]
  split
  · rename_i h
    obtain ⟨rfl, _⟩ := h
    exact ⟨rfl, rfl⟩
  · exact ⟨rfl, rfl⟩

theorem Board.mem_get_adjacent_inBounds (b : Board) (c d : Coord)
    (h : d ∈ b.get_adjacent_coords c) : b.inBounds d := by
  unfold Board.get_adjacent_coords at h
  rw [List.mem_filter] at h
  obtain ⟨_, h2⟩ := h
  rw [decide_eq_true_iff] at h2
  unfold Board.inBounds
  omega

theorem Board.process_one_fst (b : Board) (c : Coord) :
    (b.process_one c).1 = b.open_cell c := by
  unfold Board.process_one
  dsimp only
  split <;> rfl

theorem Board.process_one_snd_mem (b : Board) (c d : Coord)
    (h : d ∈ (b.process_one c).2) :
    b.inBounds d ∧ ((b.open_cell c).at d).is_opened = false ∧
      ((b.open_cell c).at d).is_hole = false := by
  unfold Board.process_one at h
  dsimp only at h
  split at h
  · simp at h
  · rw [List.mem_filter] at h
    obtain ⟨h1, h2⟩ := h
    have hb : b.inBounds d := by
      have := Board.mem_get_adjacent_inBounds (b.open_cell c) c d h1
      unfold Board.inBounds at this ⊢
      rw [Board.open_cell_width, Board.open_cell_height] at this
      exact this
    simp only [Bool.and_eq_true, Bool.not_eq_true'] at h2
    exact ⟨hb, h2.2, h2.1⟩

theorem Board.process_one_measure (b : Board) (c : Coord) (rest : List Coord) :
    Prod.Lex (· < ·) (· < ·)
      (Board.measU (b.process_one c).1 (rest ++ (b.process_one c).2),
       Board.measQo (b.process_one c).1 (rest ++ (b.process_one c).2))
      (Board.measU b (c :: rest), Board.measQo b (c :: rest)) := by
  rw [Board.process_one_fst]
  set b1 := b.open_cell c with hb1
  set new := (b.process_one c).2 with hnew
  have hall : b1.allCoords = b.allCoords := by
    unfold Board.allCoords
    rw [Board.open_cell_width, Board.open_cell_height]
  have hnewmem : ∀ d ∈ new, b.inBounds d ∧ (b1.at d).is_opened = false := by
    intro d hd
    obtain ⟨h1, h2, _⟩ := Board.process_one_snd_mem b c d hd
    exact ⟨h1, h2⟩
  by_cases hc : (b.at c).is_opened
  · -- the dequeued cell was already opened: the board is unchanged,
    -- the count of opened queue entries strictly decreases
    have hbeq : b1 = b := by
      rw [hb1]
      unfold Board.open_cell
      dsimp only
      rw [if_pos hc]
    have hU : Board.measU b1 (rest ++ new) ≤ Board.measU b (c :: rest) := by
      unfold Board.measU
      apply Finset.card_le_card
      intro d hd
      rw [Finset.mem_filter] at hd ⊢
      obtain ⟨hd1, hd2⟩ := hd
      rw [hall] at hd1
      rw [hbeq] at hd2
      refine ⟨?_, hd2⟩
      rw [Finset.mem_union] at hd1 ⊢
      rcases hd1 with h | h
      · exact Or.inl h
      · rw [List.toFinset_append, Finset.mem_union] at h
        rcases h with h | h
        · right; rw [List.mem_toFinset] at h ⊢; exact List.mem_cons_of_mem _ h
        · left
          rw [List.mem_toFinset] at h
          rw [Board.mem_allCoords]
          exact (hnewmem d h).1
    have hQ : Board.measQo b1 (rest ++ new) < Board.measQo b (c :: rest) := by
      unfold Board.measQo
      rw [List.countP_append, List.countP_cons]
      rw [hbeq]
      have hzero : new.countP (fun d => (b.at d).is_opened) = 0 := by
        apply List.countP_eq_zero.mpr
        intro d hd
        have := (hnewmem d hd).2
        rw [hbeq] at this
        simpa using this
      rw [hzero]
      simp [hc]
    rcases Nat.lt_or_ge (Board.measU b1 (rest ++ new)) (Board.measU b (c :: rest)) with h | h
    · exact Prod.Lex.left _ _ h
    · have : Board.measU b1 (rest ++ new) = Board.measU b (c :: rest) := le_antisymm hU h
      rw [this]
      exact Prod.Lex.right _ hQ
  · -- the dequeued cell gets opened: the unopened count strictly decreases
    apply Prod.Lex.left
    unfold Board.measU
    apply Finset.card_lt_card
    rw [Finset.ssubset_iff_of_subset]
    · refine ⟨c, ?_, ?_⟩
      · rw [Finset.mem_filter]
        refine ⟨?_, by simpa using hc⟩
        rw [Finset.mem_union]
        right
        rw [List.mem_toFinset]
        exact List.mem_cons_self c rest
      · rw [Finset.mem_filter]
        rintro ⟨_, h2⟩
        have : (b1.at c).is_opened = true := by
          rw [hb1, Board.open_cell_opened_iff]
          simp
        rw [this] at h2
        exact Bool.true_eq_false.mp h2
    · intro d hd
      rw [Finset.mem_filter] at hd ⊢
      obtain ⟨hd1, hd2⟩ := hd
      have hdc : d ≠ c := by
        intro h
        subst h
        have : (b1.at d).is_opened = true := by
          rw [hb1, Board.open_cell_opened_iff]
          simp
        rw [this] at hd2
        exact Bool.true_eq_false.mp hd2
      have hdb : (b.at d).is_opened = false := by
        have := hd2
        rw [hb1, Board.open_cell_opened_iff] at this
        rw [Bool.or_eq_false_iff] at this
        exact this.1
      refine ⟨?_, hdb⟩
      rw [hall, Finset.mem_union] at hd1
      rw [Finset.mem_union]
      rcases hd1 with h | h
      · exact Or.inl h
      · rw [List.toFinset_append, Finset.mem_union] at h
        rcases h with h | h
        · right; rw [List.mem_toFinset] at h ⊢; exact List.mem_cons_of_mem _ h
        · left
          rw [List.mem_toFinset] at h
          rw [Board.mem_allCoords]
          exact (hnewmem d h).1

/-- Method `Board._open_cells`: the FIFO worklist loop (`deque` seeded with the
clicked coordinate, `popleft` from the front, `append` to the back). -/
def Board.open_cells_loop (b : Board) (queue : List Coord) : Board :=
  match queue with
  | [] => b
  | c :: rest =>
    (b.process_one c).1.open_cells_loop (rest ++ (b.process_one c).2)
termination_by (b.measU queue, b.measQo queue)
decreasing_by exact Board.process_one_measure b c rest

/-- Method `Board._open_cells` seeded with a single clicked coordinate. -/
def Board.open_cells (b : Board) (coord : Coord) : Board :=
  b.open_cells_loop [coord]

/-- Method `Board.click_on`: clicking a hole loses the game immediately;
otherwise the reveal loop runs.  Note: faithful to the source, there is
no guard on `status`. -/
def Board.click_on (b : Board) (coord : Coord) : Board :=
  if (b.at coord).is_hole then { b with status := GameStatus.LOST }
  else b.open_cells coord

theorem Board.process_one_measure_perm (b : Board) (c : Coord) (rest q' : List Coord)
    (hq : List.Perm q' (rest ++ (b.process_one c).2)) :
    Prod.Lex (· < ·) (· < ·)
      (Board.measU (b.process_one c).1 q', Board.measQo (b.process_one c).1 q')
      (Board.measU b (c :: rest), Board.measQo b (c :: rest)) := by
  have h1 : Board.measU (b.process_one c).1 q' =
      Board.measU (b.process_one c).1 (rest ++ (b.process_one c).2) := by
    unfold Board.measU
    have hfin : q'.toFinset = (rest ++ (b.process_one c).2).toFinset := by
      apply Finset.ext
      intro a
      rw [List.mem_toFinset, List.mem_toFinset]
      exact hq.mem_iff
    rw [hfin]
  have h2 : Board.measQo (b.process_one c).1 q' =
      Board.measQo (b.process_one c).1 (rest ++ (b.process_one c).2) := by
    unfold Board.measQo
    exact hq.countP_eq _
  rw [h1, h2]
  exact Board.process_one_measure b c rest

/-- A LIFO (stack) variant of the reveal worklist: the newly found work
items are pushed in front of the remaining ones, so the next coordinate
processed is the most recently discovered one (depth-first order).  Used
to express traversal-order independence. -/
def Board.open_cells_lifo (b : Board) (queue : List Coord) : Board :=
  match queue with
  | [] => b
  | c :: rest =>
    (b.process_one c).1.open_cells_lifo ((b.process_one c).2 ++ rest)
termination_by (b.measU queue, b.measQo queue)
decreasing_by exact Board.process_one_measure_perm b c rest _ (List.perm_append_comm)

/-- Method `Board._generate_holes`: mark each returned coordinate's cell as a hole. -/
def Board.generate_holes (b : Board) (holes : List Coord) : Board :=
  holes.foldl
    (fun bb hole_coord => bb.setCell hole_coord { bb.at hole_coord with is_hole := true }) b

/-- Body of the `_generate_holes_adjacent` loop at one coordinate: skip
hole cells, otherwise store the count of adjacent cells that are holes. -/
def Board.adjStep (bb : Board) (coord : Coord) : Board :=
  if (bb.at coord).is_hole then bb
  else bb.setCell coord
    { bb.at coord with
      holes_around := (bb.get_adjacent_cells coord).countP (fun cl => cl.is_hole) }

/-- Method `Board._generate_holes_adjacent`: go through all the cells
(`y` outer, `x` inner) and compute neighbor black-hole counts. -/
def Board.generate_holes_adjacent (b : Board) : Board :=
  (List.range b.height.toNat).foldl
    (fun bb (y : Nat) =>
      (List.range bb.width.toNat).foldl
        (fun bb2 (x : Nat) => bb2.adjStep ⟨(x : Int), (y : Int)⟩) bb) b

/-- The `HolesGenerator.generate_holes` candidate enumeration: every
coordinate of the board except the skipped one, `x` outer, `y` inner. -/
def HolesGenerator.available_places (width height : Int) (skip_cell : Coord) : List Coord :=
  (List.range width.toNat).flatMap (fun (x : Nat) =>
    (List.range height.toNat).filterMap (fun (y : Nat) =>
      if (⟨(x : Int), (y : Int)⟩ : Coord) = skip_cell then none
      else some ⟨(x : Int), (y : Int)⟩))

/-- Modelled from the spec: the external random-sampling primitive
`random.sample(population, k)` called by `HolesGenerator.generate_holes`
(the only piece of the engine whose code is not in the repository) returns
`k` distinct elements chosen from `population` without replacement.
`IsSample pop k res` says `res` is a possible return value of that call. -/
def IsSample (population : List Coord) (k : Nat) (result : List Coord) : Prop :=
  result.Nodup ∧ result.length = k ∧ ∀ c ∈ result, c ∈ population

instance (p : List Coord) (k : Nat) (r : List Coord) : Decidable (IsSample p k r) := by
  unfold IsSample; infer_instance

/-- The freshly allocated board of `Board.__init__` before generation:
a `size x size` grid of default cells, status `IN_GAME` and
`cells_to_open = size * size - holes_num`. -/
def Board.initial (size holes_num : Int) : Board :=
  { width := size, height := size, status := GameStatus.IN_GAME,
    cells_to_open := size * size - holes_num, grid := fun _ => {} }

/-- Method `Board._generate_board`: hole placement followed by adjacency
computation, applied to the fresh board. -/
def Board.prepared (size holes_num : Int) (holes : List Coord) : Board :=
  ((Board.initial size holes_num).generate_holes holes).generate_holes_adjacent

/-- Constructor `Board.__init__` (exposed as `Board.construct`): validate the size and
hole count, allocate the default grid, set status and `cells_to_open`,
mark the generated holes, compute adjacency counts, then perform the
mandatory first click.  The first two failure branches are the source's
explicit `ValueError`s.  The third failure branch is modelled from the
spec: the `random.sample` call inside `HolesGenerator.generate_holes`
(a standard-library primitive, not in the repository) raises
`ValueError` when its sample size is negative — the spec's "hole count
unsatisfiable" configuration error — and that exception propagates out
of `__init__`, so no board is produced.  A sample size exceeding the
population cannot occur once the too-many-holes check has passed, since
`holes_num < size^2 - 9 ≤ size^2 - 1`, the candidate count.  The
`holes` argument is the list the (modelled) `random.sample` call
returns when it succeeds. -/
def Board.construct (size : Int) (holes_num : Int) (holes : List Coord)
    (first_coord : Coord) : Except String Board :=
  if size ≤ SMALLEST_BOARD_SIZE then
    Except.error "board too small"
  else if size ^ 2 - SMALLEST_BOARD_SIZE ^ 2 ≤ holes_num then
    Except.error "too many holes"
  else if holes_num < 0 then
    Except.error "sample larger than population or is negative"
  else
    Except.ok ((Board.prepared size holes_num holes).click_on first_coord)

/-- The set of coordinates processed by the worklist reveal started on
board `b` with the given seed set: the least set containing the seeds and
closed under expanding from a member cell with `holes_around = 0` to each
of its in-bounds, non-hole, not-already-opened neighbors (openness judged
on the starting board `b`). -/
inductive Board.ReachFrom (b : Board) (seeds : Coord → Prop) : Coord → Prop where
  | seed (c : Coord) : seeds c → Board.ReachFrom b seeds c
  | step (c d : Coord) : Board.ReachFrom b seeds c → (b.at c).holes_around = 0 →
      d ∈ b.get_adjacent_coords c → (b.at d).is_hole = false →
      (b.at d).is_opened = false → Board.ReachFrom b seeds d

/-- The flood-fill closure in the words of the specification: the least
set of coordinates that contains the clicked coordinate and is closed
under adding, for every member cell with `holes_around = 0`, all of its
in-bounds non-hole neighbors. -/
inductive Board.ReachSpec (b : Board) (start : Coord) : Coord → Prop where
  | base : Board.ReachSpec b start start
  | step (c d : Coord) : Board.ReachSpec b start c → (b.at c).holes_around = 0 →
      d ∈ b.get_adjacent_coords c → (b.at d).is_hole = false →
      Board.ReachSpec b start d

/-- One step of the reveal under an arbitrary valid traversal order: some
queued coordinate is chosen and processed exactly as the loop body does,
and the work items it produces join the remaining ones in any order. -/
inductive WorklistStep : Board × List Coord → Board × List Coord → Prop where
  | pick (b : Board) (c : Coord) (l r q' : List Coord) :
      List.Perm q' (l ++ r ++ (b.process_one c).2) →
      WorklistStep (b, l ++ c :: r) ((b.process_one c).1, q')

/-- Board states reachable from a successful construction by any sequence
of in-bounds clicks.  The construction case carries the environment's
obligations: the hole count is non-negative (`random.sample` fails on a
negative `k`), the first coordinate is within bounds (the input layer
validates coordinates), and the hole list is a possible `random.sample`
result over the generator's candidate list. -/
inductive ReachableFrom (size holes_num : Int) (holes : List Coord)
    (first_coord : Coord) : Board → Prop where
  | construct (b : Board) :
      0 ≤ holes_num →
      0 ≤ first_coord.x → first_coord.x < size →
      0 ≤ first_coord.y → first_coord.y < size →
      IsSample (HolesGenerator.available_places size size first_coord)
        holes_num.toNat holes →
      Board.construct size holes_num holes first_coord = Except.ok b →
      ReachableFrom size holes_num holes first_coord b
  | click (b : Board) (c : Coord) :
      ReachableFrom size holes_num holes first_coord b →
      b.inBounds c →
      ReachableFrom size holes_num holes first_coord (b.click_on c)

theorem Board.open_cell_hole (b : Board) (c d : Coord) :
    ((b.open_cell c).at d).is_hole = (b.at d).is_hole :=
  (Board.open_cell_static b c d).1

theorem Board.open_cell_around (b : Board) (c d : Coord) :
    ((b.open_cell c).at d).holes_around = (b.at d).holes_around :=
  (Board.open_cell_static b c d).2

theorem Board.open_cell_adjacent (b : Board) (c e : Coord) :
    (b.open_cell c).get_adjacent_coords e = b.get_adjacent_coords e := by
  unfold Board.get_adjacent_coords
  rw [Board.open_cell_width, Board.open_cell_height]

theorem Board.open_cell_opened_eq (b : Board) (c : Coord)
    (h : (b.at c).is_opened = true) : b.open_cell c = b := by
  unfold Board.open_cell
  dsimp only
  rw [if_pos h]

theorem Board.open_cell_counter (b : Board) (c : Coord) :
    (b.open_cell c).cells_to_open =
      if (b.at c).is_opened = false then b.cells_to_open - 1 else b.cells_to_open := by
  unfold Board.open_cell Board.setCell
  dsimp only
  by_cases h : (b.at c).is_opened
  · rw [if_pos h, if_neg (by simp [h])]
  · rw [if_neg h]
    split <;> simp [show (b.at c).is_opened = false from by simpa using h]

theorem Board.open_cell_status (b : Board) (c : Coord) :
    (b.open_cell c).status =
      if (b.at c).is_opened = false ∧ b.cells_to_open - 1 = 0
      then GameStatus.WIN else b.status := by
  unfold Board.open_cell Board.setCell
  dsimp only
  by_cases h : (b.at c).is_opened
  · rw [if_pos h, if_neg (by simp [h])]
  · rw [if_neg h]
    by_cases h2 : b.cells_to_open - 1 = 0
    · rw [if_pos h2, if_pos ⟨by simpa using h, h2⟩]
    · rw [if_neg h2, if_neg (by rintro ⟨_, hx⟩; exact h2 hx)]

theorem Board.neighbors_ne_zero :
    ∀ n ∈ Board.neighbors, ¬(n.x = 0 ∧ n.y = 0) := by decide

theorem Board.self_not_mem_adjacent (b : Board) (c : Coord) :
    c ∉ b.get_adjacent_coords c := by
  intro h
  unfold Board.get_adjacent_coords at h
  rw [List.mem_filter, List.mem_map] at h
  obtain ⟨⟨n, hn, he⟩, _⟩ := h
  have := Board.neighbors_ne_zero n hn
  apply this
  have hx : n.x + c.x = c.x := congrArg Coord.x he
  have hy : n.y + c.y = c.y := congrArg Coord.y he
  omega

/-- Membership in the work items produced by one loop iteration: the
dequeued cell must have had zero `holes_around`, and the item is an
in-bounds neighbor that is neither a hole nor already opened. -/
theorem Board.mem_process_one_snd (b : Board) (c d : Coord) :
    d ∈ (b.process_one c).2 ↔
      ((b.at c).holes_around = 0 ∧ d ∈ b.get_adjacent_coords c ∧
       (b.at d).is_hole = false ∧ (b.at d).is_opened = false) := by
  unfold Board.process_one
  dsimp only
  rw [Board.open_cell_around]
  by_cases hz : (b.at c).holes_around = 0
  · rw [if_neg (by simpa using hz)]
    rw [List.mem_filter, Board.open_cell_adjacent]
    constructor
    · rintro ⟨h1, h2⟩
      have hdc : d ≠ c := fun h => Board.self_not_mem_adjacent b c (h ▸ h1)
      simp only [Bool.and_eq_true, Bool.not_eq_true'] at h2
      rw [Board.open_cell_hole] at h2
      rw [Board.open_cell_opened_iff] at h2
      have h3 := h2.2
      rw [Bool.or_eq_false_iff] at h3
      exact ⟨hz, h1, h2.1, h3.1⟩
    · rintro ⟨_, h1, h2, h3⟩
      have hdc : d ≠ c := fun h => Board.self_not_mem_adjacent b c (h ▸ h1)
      refine ⟨h1, ?_⟩
      simp only [Bool.and_eq_true, Bool.not_eq_true']
      rw [Board.open_cell_hole, Board.open_cell_opened_iff]
      exact ⟨h2, by simp [h3, hdc]⟩
  · rw [if_pos (by simpa using hz)]
    simp only [List.not_mem_nil, false_iff]
    rintro ⟨h1, _⟩
    exact hz h1

theorem Board.reach_congr_seeds {b : Board} {s1 s2 : Coord → Prop}
    (h : ∀ e, s1 e ↔ s2 e) {d : Coord} (hd : b.ReachFrom s1 d) :
    b.ReachFrom s2 d := by
  induction hd with
  | seed e he => exact Board.ReachFrom.seed e ((h e).mp he)
  | step x d hx hz hadj hnh hop ih => exact Board.ReachFrom.step x d ih hz hadj hnh hop

theorem Board.reach_empty {b : Board} {d : Coord}
    (hd : b.ReachFrom (fun e => e ∈ ([] : List Coord)) d) : False := by
  induction hd with
  | seed e he => simp at he
  | step x d hx hz hadj hnh hop ih => exact ih

theorem Board.reach_mem_or_inBounds {b : Board} {seeds : Coord → Prop} {d : Coord}
    (hd : b.ReachFrom seeds d) : seeds d ∨ b.inBounds d := by
  induction hd with
  | seed e he => exact Or.inl he
  | step x d hx hz hadj hnh hop ih => exact Or.inr (Board.mem_get_adjacent_inBounds b x d hadj)

/-- Processing one dequeued coordinate preserves the reveal closure,
forward direction: anything reachable from the old queue is either the
dequeued cell itself or reachable from the new queue on the new board. -/
theorem Board.reach_step_forward (b : Board) (c : Coord) (l r : List Coord) {d : Coord}
    (hd : b.ReachFrom (fun e => e ∈ l ++ c :: r) d) :
    d = c ∨ (b.open_cell c).ReachFrom
      (fun e => e ∈ l ++ r ++ (b.process_one c).2) d := by
  induction hd with
  | seed e he =>
    simp only [List.mem_append, List.mem_cons] at he
    rcases he with h | h | h
    · exact Or.inr (Board.ReachFrom.seed e (by simp [h]))
    · exact Or.inl h
    · exact Or.inr (Board.ReachFrom.seed e (by simp [h]))
  | step x d hx hz hadj hnh hop ih =>
    by_cases hdc : d = c
    · exact Or.inl hdc
    · right
      rcases ih with rfl | hx1
      · -- the fill expanded from the dequeued cell itself:
        -- the target is among the newly enqueued work items
        apply Board.ReachFrom.seed
        have : d ∈ (b.process_one x).2 :=
          (Board.mem_process_one_snd b x d).mpr ⟨hz, hadj, hnh, hop⟩
        simp [this]
      · apply Board.ReachFrom.step x d hx1
        · rw [Board.open_cell_around]; exact hz
        · rw [Board.open_cell_adjacent]; exact hadj
        · rw [Board.open_cell_hole]; exact hnh
        · rw [Board.open_cell_opened_iff]; simp [hop, hdc]

/-- Processing one dequeued coordinate preserves the reveal closure,
backward direction. -/
theorem Board.reach_step_backward (b : Board) (c : Coord) (l r : List Coord) {d : Coord}
    (hd : (b.open_cell c).ReachFrom
      (fun e => e ∈ l ++ r ++ (b.process_one c).2) d) :
    b.ReachFrom (fun e => e ∈ l ++ c :: r) d := by
  induction hd with
  | seed e he =>
    simp only [List.mem_append] at he
    rcases he with (h | h) | h
    · exact Board.ReachFrom.seed e (by simp [h])
    · exact Board.ReachFrom.seed e (by simp [h])
    · obtain ⟨h1, h2, h3, h4⟩ := (Board.mem_process_one_snd b c e).mp h
      exact Board.ReachFrom.step c e (Board.ReachFrom.seed c (by simp)) h1 h2 h3 h4
  | step x d hx hz hadj hnh hop ih =>
    rw [Board.open_cell_around] at hz
    rw [Board.open_cell_adjacent] at hadj
    rw [Board.open_cell_hole] at hnh
    rw [Board.open_cell_opened_iff, Bool.or_eq_false_iff] at hop
    exact Board.ReachFrom.step x d ih hz hadj hnh hop.1

/-- The "opened or reachable" set is invariant under one loop iteration. -/
theorem Board.step_opened_union_iff (b : Board) (c : Coord) (l r : List Coord) (d : Coord) :
    ((b.at d).is_opened = true ∨ b.ReachFrom (fun e => e ∈ l ++ c :: r) d) ↔
    (((b.open_cell c).at d).is_opened = true ∨
      (b.open_cell c).ReachFrom (fun e => e ∈ l ++ r ++ (b.process_one c).2) d) := by
  constructor
  · rintro (h | h)
    · left; rw [Board.open_cell_opened_iff, h]; simp
    · rcases Board.reach_step_forward b c l r h with rfl | h1
      · left; rw [Board.open_cell_opened_iff]; simp
      · exact Or.inr h1
  · rintro (h | h)
    · rw [Board.open_cell_opened_iff, Bool.or_eq_true] at h
      rcases h with h | h
      · exact Or.inl h
      · rw [decide_eq_true_iff] at h
        subst h
        exact Or.inr (Board.ReachFrom.seed d (by simp))
    · exact Or.inr (Board.reach_step_backward b c l r h)

/-- The set of cells the reveal newly opens: reachable from the queue and
not yet opened on the current board. -/
def Board.newlySet (b : Board) (q : List Coord) : Set Coord :=
  {d | b.ReachFrom (fun e => e ∈ q) d ∧ (b.at d).is_opened = false}

theorem Board.newlySet_finite (b : Board) (q : List Coord) :
    (b.newlySet q).Finite := by
  apply Set.Finite.subset (Finset.finite_toSet (b.allCoords ∪ q.toFinset))
  intro d hd
  obtain ⟨h1, _⟩ := hd
  rcases Board.reach_mem_or_inBounds h1 with h | h
  · simp [h]
  · simp [Board.mem_allCoords, h]

theorem Board.step_newly_opened (b : Board) (c : Coord) (l r : List Coord)
    (h : (b.at c).is_opened = true) :
    (b.open_cell c).newlySet (l ++ r ++ (b.process_one c).2) =
      b.newlySet (l ++ c :: r) := by
  have hbeq : b.open_cell c = b := Board.open_cell_opened_eq b c h
  ext d
  constructor
  · rintro ⟨h1, h2⟩
    refine ⟨Board.reach_step_backward b c l r h1, ?_⟩
    rw [hbeq] at h2
    exact h2
  · rintro ⟨h1, h2⟩
    have hdc : d ≠ c := by
      intro he
      rw [he, h] at h2
      exact Bool.true_eq_false.mp h2
    rcases Board.reach_step_forward b c l r h1 with he | h3
    · exact absurd he hdc
    · exact ⟨h3, by rw [hbeq]; exact h2⟩

theorem Board.step_newly_unopened (b : Board) (c : Coord) (l r : List Coord)
    (h : (b.at c).is_opened = false) :
    (b.open_cell c).newlySet (l ++ r ++ (b.process_one c).2) =
      b.newlySet (l ++ c :: r) \ {c} := by
  ext d
  constructor
  · rintro ⟨h1, h2⟩
    rw [Board.open_cell_opened_iff, Bool.or_eq_false_iff] at h2
    obtain ⟨h2a, h2b⟩ := h2
    rw [decide_eq_false_iff_not] at h2b
    exact ⟨⟨Board.reach_step_backward b c l r h1, h2a⟩, by simpa using h2b⟩
  · rintro ⟨⟨h1, h2⟩, h3⟩
    have hdc : d ≠ c := by simpa using h3
    rcases Board.reach_step_forward b c l r h1 with he | h4
    · exact absurd he hdc
    · refine ⟨h4, ?_⟩
      rw [Board.open_cell_opened_iff, h2]
      simp [hdc]

theorem Board.c_mem_newly (b : Board) (c : Coord) (l r : List Coord)
    (h : (b.at c).is_opened = false) : c ∈ b.newlySet (l ++ c :: r) :=
  ⟨Board.ReachFrom.seed c (by simp), h⟩

/-- Full characterization of a completed reveal run starting from board
`b` and queue `q` and ending in board `bf`: geometry and static cell data
are unchanged, a cell ends opened iff it was opened or is reachable,
`cells_to_open` drops by the number of newly opened cells, and the status
becomes `WIN` exactly if it already was `WIN` or the counter is hit
exactly (it starts at least 1 and at most the number of newly opened
cells); otherwise the status is unchanged. -/
def RunOk (b : Board) (q : List Coord) (bf : Board) : Prop :=
  bf.width = b.width ∧ bf.height = b.height ∧
  (∀ d, (bf.at d).is_hole = (b.at d).is_hole) ∧
  (∀ d, (bf.at d).holes_around = (b.at d).holes_around) ∧
  (∀ d, (bf.at d).is_opened = true ↔
    ((b.at d).is_opened = true ∨ b.ReachFrom (fun e => e ∈ q) d)) ∧
  bf.cells_to_open = b.cells_to_open - ((b.newlySet q).ncard : Int) ∧
  (bf.status = GameStatus.WIN ↔
    (b.status = GameStatus.WIN ∨
      (1 ≤ b.cells_to_open ∧ b.cells_to_open ≤ ((b.newlySet q).ncard : Int)))) ∧
  (bf.status = b.status ∨ bf.status = GameStatus.WIN)

theorem RunOk.nil (b : Board) : RunOk b [] b := by
  have hempty : b.newlySet [] = ∅ := by
    ext d
    simp only [Set.mem_empty_iff_false, iff_false]
    rintro ⟨h, _⟩
    exact Board.reach_empty h
  refine ⟨rfl, rfl, fun d => rfl, fun d => rfl, ?_, ?_, ?_, Or.inl rfl⟩
  · intro d
    constructor
    · intro h
      exact Or.inl h
    · rintro (h | h)
      · exact h
      · exact absurd h Board.reach_empty
  · rw [hempty]
    simp
  · rw [hempty]
    simp only [Set.ncard_empty, Nat.cast_zero]
    constructor
    · intro h
      exact Or.inl h
    · rintro (h | ⟨h1, h2⟩)
      · exact h
      · omega

/-- Composing one loop iteration in front of a completed run. -/
theorem RunOk.head (b : Board) (c : Coord) (l r q' : List Coord) (bf : Board)
    (hperm : List.Perm q' (l ++ r ++ (b.process_one c).2))
    (h : RunOk (b.process_one c).1 q' bf) : RunOk b (l ++ c :: r) bf := by
  rw [Board.process_one_fst] at h
  obtain ⟨hw, hh, hhole, haround, hopen, hctr, hwin, hstat⟩ := h
  have hmem : ∀ e, (e ∈ q') ↔ (e ∈ l ++ r ++ (b.process_one c).2) :=
    fun e => hperm.mem_iff
  have hopen' : ∀ d, (bf.at d).is_opened = true ↔
      (((b.open_cell c).at d).is_opened = true ∨
        (b.open_cell c).ReachFrom (fun e => e ∈ l ++ r ++ (b.process_one c).2) d) := by
    intro d
    rw [hopen d]
    constructor
    · rintro (h1 | h1)
      · exact Or.inl h1
      · exact Or.inr (Board.reach_congr_seeds hmem h1)
    · rintro (h1 | h1)
      · exact Or.inl h1
      · exact Or.inr (Board.reach_congr_seeds (fun e => (hmem e).symm) h1)
  have hnewq : (b.open_cell c).newlySet q' =
      (b.open_cell c).newlySet (l ++ r ++ (b.process_one c).2) := by
    ext d
    constructor
    · rintro ⟨h1, h2⟩
      exact ⟨Board.reach_congr_seeds hmem h1, h2⟩
    · rintro ⟨h1, h2⟩
      exact ⟨Board.reach_congr_seeds (fun e => (hmem e).symm) h1, h2⟩
  rw [hnewq] at hctr hwin
  refine ⟨by rw [hw, Board.open_cell_width], by rw [hh, Board.open_cell_height],
    fun d => by rw [hhole d, Board.open_cell_hole],
    fun d => by rw [haround d, Board.open_cell_around], ?_, ?_, ?_, ?_⟩
  · intro d
    rw [hopen' d]
    exact (Board.step_opened_union_iff b c l r d).symm
  · by_cases hc : (b.at c).is_opened
    · rw [hctr, Board.step_newly_opened b c l r hc, Board.open_cell_counter,
        if_neg (by simp [hc])]
    · have hc' : (b.at c).is_opened = false := by simpa using hc
      have hfin := Board.newlySet_finite b (l ++ c :: r)
      have hdiff := Set.ncard_diff_singleton_add_one
        (Board.c_mem_newly b c l r hc') hfin
      rw [hctr, Board.step_newly_unopened b c l r hc', Board.open_cell_counter,
        if_pos hc']
      omega
  · by_cases hc : (b.at c).is_opened
    · rw [hwin, Board.step_newly_opened b c l r hc, Board.open_cell_status,
        if_neg (by simp [hc]), Board.open_cell_counter, if_neg (by simp [hc])]
    · have hc' : (b.at c).is_opened = false := by simpa using hc
      have hfin := Board.newlySet_finite b (l ++ c :: r)
      have hdiff := Set.ncard_diff_singleton_add_one
        (Board.c_mem_newly b c l r hc') hfin
      rw [hwin, Board.step_newly_unopened b c l r hc', Board.open_cell_status,
        Board.open_cell_counter, if_pos hc']
      by_cases hz : b.cells_to_open - 1 = 0
      · rw [if_pos ⟨hc', hz⟩]
        constructor
        · intro _
          exact Or.inr ⟨by omega, by omega⟩
        · intro _
          exact Or.inl rfl
      · rw [if_neg (by rintro ⟨_, hx⟩; exact hz hx)]
        constructor
        · rintro (h1 | ⟨h1, h2⟩)
          · exact Or.inl h1
          · exact Or.inr ⟨by omega, by omega⟩
        · rintro (h1 | ⟨h1, h2⟩)
          · exact Or.inl h1
          · exact Or.inr ⟨by omega, by omega⟩
  · rcases hstat with h1 | h1
    · rw [h1, Board.open_cell_status]
      split
      · exact Or.inr rfl
      · exact Or.inl rfl
    · exact Or.inr h1

/-- Any completed run of the reveal worklist, under any valid traversal
order, satisfies the run characterization. -/
theorem worklist_run_char (p pf : Board × List Coord)
    (h : Relation.ReflTransGen WorklistStep p pf) (hnil : pf.2 = []) :
    RunOk p.1 p.2 pf.1 := by
  induction h using Relation.ReflTransGen.head_induction_on with
  | refl =>
    rw [hnil]
    exact RunOk.nil pf.1
  | head hstep htail ih =>
    cases hstep with
    | pick b c l r q' hperm =>
      exact RunOk.head b c l r q' pf.1 hperm ih

/-- The implemented FIFO loop is one (completed) run of the worklist
relation. -/
theorem Board.open_cells_loop_run (b : Board) (q : List Coord) :
    Relation.ReflTransGen WorklistStep (b, q) (b.open_cells_loop q, []) := by
  induction b, q using Board.open_cells_loop.induct with
  | case1 b =>
    rw [Board.open_cells_loop]
  | case2 b c rest ih =>
    rw [Board.open_cells_loop]
    exact Relation.ReflTransGen.head
      (WorklistStep.pick b c [] rest (rest ++ (b.process_one c).2) (List.Perm.refl _)) ih

/-- The LIFO (depth-first) loop is also a completed run of the worklist
relation. -/
theorem Board.open_cells_lifo_run (b : Board) (q : List Coord) :
    Relation.ReflTransGen WorklistStep (b, q) (b.open_cells_lifo q, []) := by
  induction b, q using Board.open_cells_lifo.induct with
  | case1 b =>
    rw [Board.open_cells_lifo]
  | case2 b c rest ih =>
    rw [Board.open_cells_lifo]
    exact Relation.ReflTransGen.head
      (WorklistStep.pick b c [] rest ((b.process_one c).2 ++ rest) List.perm_append_comm) ih

/-- Characterization of the implemented FIFO reveal loop. -/
theorem Board.open_cells_loop_char (b : Board) (q : List Coord) :
    RunOk b q (b.open_cells_loop q) :=
  worklist_run_char (b, q) (b.open_cells_loop q, []) (Board.open_cells_loop_run b q) rfl

/-- Characterization of the LIFO reveal loop. -/
theorem Board.open_cells_lifo_char (b : Board) (q : List Coord) :
    RunOk b q (b.open_cells_lifo q) :=
  worklist_run_char (b, q) (b.open_cells_lifo q, []) (Board.open_cells_lifo_run b q) rfl

/-- Characterization of `click_on` on a non-hole cell. -/
theorem Board.click_on_safe (b : Board) (c : Coord) (h : (b.at c).is_hole = false) :
    b.click_on c = b.open_cells_loop [c] := by
  unfold Board.click_on Board.open_cells
  rw [if_neg (by simp [h])]

/-- Characterization of `click_on` on a hole cell: only the status
changes, to `LOST`. -/
theorem Board.click_on_hole (b : Board) (c : Coord) (h : (b.at c).is_hole = true) :
    b.click_on c = { b with status := GameStatus.LOST } := by
  unfold Board.click_on
  rw [if_pos h]

theorem Board.setCell_at (b : Board) (c : Coord) (cell : Cell) (d : Coord) :
    (b.setCell c cell).at d = if d = c then cell else b.at d := rfl

theorem Board.generate_holes_dims (holes : List Coord) (b : Board) :
    (b.generate_holes holes).width = b.width ∧
    (b.generate_holes holes).height = b.height ∧
    (b.generate_holes holes).status = b.status ∧
    (b.generate_holes holes).cells_to_open = b.cells_to_open := by
  induction holes generalizing b with
  | nil => exact ⟨rfl, rfl, rfl, rfl⟩
  | cons hc t ih =>
    have hstep : b.generate_holes (hc :: t) =
        (b.setCell hc { b.at hc with is_hole := true }).generate_holes t := rfl
    rw [hstep]
    exact ih _

/-- After `_generate_holes`, a cell is the original one with `is_hole`
forced to `True` exactly on the listed coordinates. -/
theorem Board.generate_holes_at (holes : List Coord) (b : Board) (d : Coord) :
    (b.generate_holes holes).at d =
      if d ∈ holes then { b.at d with is_hole := true } else b.at d := by
  induction holes generalizing b with
  | nil => simp [Board.generate_holes]
  | cons hc t ih =>
    have hstep : b.generate_holes (hc :: t) =
        (b.setCell hc { b.at hc with is_hole := true }).generate_holes t := rfl
    rw [hstep, ih, Board.setCell_at]
    by_cases h1 : d ∈ t
    · rw [if_pos h1, if_pos (List.mem_cons_of_mem _ h1)]
      by_cases h2 : d = hc
      · subst h2
        rw [if_pos rfl]
      · rw [if_neg h2]
    · rw [if_neg h1]
      by_cases h2 : d = hc
      · subst h2
        rw [if_pos rfl, if_pos (List.mem_cons_self d t)]
      · rw [if_neg h2, if_neg (by simp [h1, h2])]

/-- The count of adjacent cells that are holes (as computed by
`_generate_holes_adjacent` at one cell). -/
def Board.adjCount (b : Board) (d : Coord) : Nat :=
  (b.get_adjacent_cells d).countP (fun cl => cl.is_hole)

theorem Board.adjCount_congr (b bb : Board) (hW : bb.width = b.width)
    (hH : bb.height = b.height)
    (hhole : ∀ e, (bb.at e).is_hole = (b.at e).is_hole) (d : Coord) :
    bb.adjCount d = b.adjCount d := by
  unfold Board.adjCount Board.get_adjacent_cells
  rw [List.countP_map, List.countP_map]
  have hadj : bb.get_adjacent_coords d = b.get_adjacent_coords d := by
    unfold Board.get_adjacent_coords
    rw [hW, hH]
  rw [hadj]
  apply List.countP_congr
  intro a _
  simp [Function.comp, hhole a]

theorem Board.adjStep_dims (bb : Board) (c : Coord) :
    (bb.adjStep c).width = bb.width ∧ (bb.adjStep c).height = bb.height ∧
    (bb.adjStep c).status = bb.status ∧
    (bb.adjStep c).cells_to_open = bb.cells_to_open := by
  unfold Board.adjStep Board.setCell
  split <;> exact ⟨rfl, rfl, rfl, rfl⟩

theorem Board.adjStep_hole_opened (bb : Board) (c d : Coord) :
    ((bb.adjStep c).at d).is_hole = (bb.at d).is_hole ∧
    ((bb.adjStep c).at d).is_opened = (bb.at d).is_opened := by
  unfold Board.adjStep
  split
  · exact ⟨rfl, rfl⟩
  · rw [Board.setCell_at]
    by_cases h : d = c
    · subst h
      rw [if_pos rfl]
      exact ⟨rfl, rfl⟩
    · rw [if_neg h]
      exact ⟨rfl, rfl⟩

theorem Board.adjStep_at (bb : Board) (c d : Coord) :
    (bb.adjStep c).at d =
      if d = c ∧ (bb.at c).is_hole = false
      then { bb.at c with holes_around := bb.adjCount c } else bb.at d := by
  unfold Board.adjStep
  by_cases hh : (bb.at c).is_hole
  · rw [if_pos hh, if_neg (by rintro ⟨_, h2⟩; rw [hh] at h2; exact Bool.true_eq_false.mp h2)]
  · rw [if_neg hh, Board.setCell_at]
    by_cases h : d = c
    · subst h
      rw [if_pos rfl, if_pos ⟨rfl, by simpa using hh⟩]
      rfl
    · rw [if_neg h, if_neg (by rintro ⟨h1, _⟩; exact h h1)]

theorem Board.foldAdj_dims (L : List Coord) (b : Board) :
    (L.foldl Board.adjStep b).width = b.width ∧
    (L.foldl Board.adjStep b).height = b.height ∧
    (L.foldl Board.adjStep b).status = b.status ∧
    (L.foldl Board.adjStep b).cells_to_open = b.cells_to_open := by
  induction L generalizing b with
  | nil => exact ⟨rfl, rfl, rfl, rfl⟩
  | cons hc t ih =>
    rw [List.foldl_cons]
    obtain ⟨h1, h2, h3, h4⟩ := ih (b.adjStep hc)
    obtain ⟨g1, g2, g3, g4⟩ := Board.adjStep_dims b hc
    exact ⟨h1.trans g1, h2.trans g2, h3.trans g3, h4.trans g4⟩

theorem Board.foldAdj_hole_opened (L : List Coord) (b : Board) (d : Coord) :
    ((L.foldl Board.adjStep b).at d).is_hole = (b.at d).is_hole ∧
    ((L.foldl Board.adjStep b).at d).is_opened = (b.at d).is_opened := by
  induction L generalizing b with
  | nil => exact ⟨rfl, rfl⟩
  | cons hc t ih =>
    rw [List.foldl_cons]
    obtain ⟨h1, h2⟩ := ih (b.adjStep hc)
    obtain ⟨g1, g2⟩ := Board.adjStep_hole_opened b hc d
    exact ⟨h1.trans g1, h2.trans g2⟩

/-- Folding the adjacency step over a list of coordinates updates exactly
the listed non-hole cells, storing the hole count of their neighborhoods
(all counts taken on the original board, whose `is_hole` data the fold
never changes). -/
theorem Board.foldAdj_at (L : List Coord) (b : Board) (d : Coord) :
    (L.foldl Board.adjStep b).at d =
      if d ∈ L ∧ (b.at d).is_hole = false
      then { b.at d with holes_around := b.adjCount d } else b.at d := by
  induction L generalizing b with
  | nil => simp
  | cons hc t ih =>
    rw [List.foldl_cons, ih]
    have hW : (b.adjStep hc).width = b.width := (Board.adjStep_dims b hc).1
    have hH : (b.adjStep hc).height = b.height := (Board.adjStep_dims b hc).2.1
    have hhole : ∀ e, ((b.adjStep hc).at e).is_hole = (b.at e).is_hole :=
      fun e => (Board.adjStep_hole_opened b hc e).1
    have hcnt : (b.adjStep hc).adjCount d = b.adjCount d :=
      Board.adjCount_congr b (b.adjStep hc) hW hH hhole d
    by_cases hdh : (b.at d).is_hole
    · rw [if_neg (by rintro ⟨_, h2⟩; rw [hhole d, hdh] at h2; exact Bool.true_eq_false.mp h2),
        if_neg (by rintro ⟨_, h2⟩; rw [hdh] at h2; exact Bool.true_eq_false.mp h2)]
      rw [Board.adjStep_at]
      by_cases hdc : d = hc
      · subst hdc
        rw [if_neg (by rintro ⟨_, h2⟩; rw [hdh] at h2; exact Bool.true_eq_false.mp h2)]
      · rw [if_neg (by rintro ⟨h1, _⟩; exact hdc h1)]
    · have hdh' : (b.at d).is_hole = false := by simpa using hdh
      by_cases hdc : d = hc
      · subst hdc
        have hval : (b.adjStep d).at d = { b.at d with holes_around := b.adjCount d } := by
          rw [Board.adjStep_at, if_pos ⟨rfl, hdh'⟩]
        by_cases ht : d ∈ t
        · rw [if_pos ⟨ht, by rw [hhole d]; exact hdh'⟩, hval, hcnt,
            if_pos ⟨List.mem_cons_self d t, hdh'⟩]
        · rw [if_neg (by rintro ⟨h1, _⟩; exact ht h1), hval,
            if_pos ⟨List.mem_cons_self d t, hdh'⟩]
      · have hval : (b.adjStep hc).at d = b.at d := by
          rw [Board.adjStep_at, if_neg (by rintro ⟨h1, _⟩; exact hdc h1)]
        by_cases ht : d ∈ t
        · rw [if_pos ⟨ht, by rw [hhole d]; exact hdh'⟩, hval, hcnt,
            if_pos ⟨List.mem_cons_of_mem _ ht, hdh'⟩]
        · have hnotin : ¬(d ∈ hc :: t ∧ (b.at d).is_hole = false) := by
            rintro ⟨h1, _⟩
            rcases List.mem_cons.mp h1 with h | h
            · exact hdc h
            · exact ht h
          rw [if_neg (by rintro ⟨h1, _⟩; exact ht h1), hval, if_neg hnotin]

/-- All board coordinates in the iteration order of
`_generate_holes_adjacent` (`y` outer, `x` inner). -/
def coordList (w h : Int) : List Coord :=
  (List.range h.toNat).flatMap (fun (y : Nat) =>
    (List.range w.toNat).map (fun (x : Nat) => (⟨(x : Int), (y : Int)⟩ : Coord)))

theorem mem_coordList (w h : Int) (d : Coord) :
    d ∈ coordList w h ↔ (0 ≤ d.x ∧ d.x < w ∧ 0 ≤ d.y ∧ d.y < h) := by
  obtain ⟨dx, dy⟩ := d
  simp only [coordList, List.mem_flatMap, List.mem_map, List.mem_range, Coord.mk.injEq]
  constructor
  · rintro ⟨y, hy, x, hx, hxe, hye⟩
    have hy' : y < h.toNat := hy
    have hx' : x < w.toNat := hx
    refine ⟨?_, ?_, ?_, ?_⟩ <;> omega
  · rintro ⟨h1, h2, h3, h4⟩
    exact ⟨dy.toNat, show dy.toNat < h.toNat by omega, dx.toNat,
      show dx.toNat < w.toNat by omega, show (dx.toNat : Int) = dx by omega,
      show (dy.toNat : Int) = dy by omega⟩

theorem Board.foldRows (ys : List Nat) (b : Board) (w : Int) (hw : b.width = w) :
    ys.foldl (fun bb y =>
      (List.range bb.width.toNat).foldl
        (fun bb2 x => bb2.adjStep ⟨(x : Int), (y : Int)⟩) bb) b =
    (ys.flatMap (fun (y : Nat) =>
      (List.range w.toNat).map (fun (x : Nat) => (⟨(x : Int), (y : Int)⟩ : Coord)))).foldl
        Board.adjStep b := by
  induction ys generalizing b with
  | nil => simp
  | cons y t ih =>
    rw [List.foldl_cons, List.flatMap_cons, List.foldl_append]
    have hrow : (List.range b.width.toNat).foldl
        (fun bb2 x => bb2.adjStep ⟨(x : Int), (y : Int)⟩) b =
        ((List.range w.toNat).map
          (fun (x : Nat) => (⟨(x : Int), (y : Int)⟩ : Coord))).foldl Board.adjStep b := by
      rw [hw, List.foldl_map]
    rw [hrow]
    apply ih
    rw [(Board.foldAdj_dims _ b).1, hw]

theorem Board.generate_holes_adjacent_eq (b : Board) :
    b.generate_holes_adjacent = (coordList b.width b.height).foldl Board.adjStep b := by
  unfold Board.generate_holes_adjacent coordList
  exact Board.foldRows (List.range b.height.toNat) b b.width rfl

/-- The board after hole marking, before adjacency computation. -/
def Board.marked (size holes_num : Int) (holes : List Coord) : Board :=
  (Board.initial size holes_num).generate_holes holes

theorem Board.prepared_eq (size holes_num : Int) (holes : List Coord) :
    Board.prepared size holes_num holes =
      (coordList size size).foldl Board.adjStep (Board.marked size holes_num holes) := by
  unfold Board.prepared Board.marked
  rw [Board.generate_holes_adjacent_eq]
  have h1 : ((Board.initial size holes_num).generate_holes holes).width = size :=
    (Board.generate_holes_dims holes _).1
  have h2 : ((Board.initial size holes_num).generate_holes holes).height = size :=
    (Board.generate_holes_dims holes _).2.1
  rw [h1, h2]

theorem Board.marked_at (size holes_num : Int) (holes : List Coord) (d : Coord) :
    (Board.marked size holes_num holes).at d =
      if d ∈ holes then ({ is_hole := true } : Cell) else ({} : Cell) := by
  unfold Board.marked
  rw [Board.generate_holes_at]
  rfl

theorem Board.prepared_dims (size holes_num : Int) (holes : List Coord) :
    (Board.prepared size holes_num holes).width = size ∧
    (Board.prepared size holes_num holes).height = size ∧
    (Board.prepared size holes_num holes).status = GameStatus.IN_GAME ∧
    (Board.prepared size holes_num holes).cells_to_open = size * size - holes_num := by
  rw [Board.prepared_eq]
  obtain ⟨h1, h2, h3, h4⟩ := Board.foldAdj_dims (coordList size size)
    (Board.marked size holes_num holes)
  unfold Board.marked at *
  obtain ⟨g1, g2, g3, g4⟩ := Board.generate_holes_dims holes (Board.initial size holes_num)
  exact ⟨h1.trans g1, h2.trans g2, h3.trans g3, h4.trans g4⟩

theorem Board.prepared_hole (size holes_num : Int) (holes : List Coord) (d : Coord) :
    ((Board.prepared size holes_num holes).at d).is_hole = true ↔ d ∈ holes := by
  rw [Board.prepared_eq]
  rw [(Board.foldAdj_hole_opened _ _ d).1, Board.marked_at]
  by_cases h : d ∈ holes
  · simp [h]
  · simp [h]

theorem Board.prepared_unopened (size holes_num : Int) (holes : List Coord) (d : Coord) :
    ((Board.prepared size holes_num holes).at d).is_opened = false := by
  rw [Board.prepared_eq]
  rw [(Board.foldAdj_hole_opened _ _ d).2, Board.marked_at]
  by_cases h : d ∈ holes
  · simp [h]
  · simp [h]

theorem Board.prepared_around (size holes_num : Int) (holes : List Coord) (d : Coord) :
    ((Board.prepared size holes_num holes).at d).holes_around =
      if (0 ≤ d.x ∧ d.x < size ∧ 0 ≤ d.y ∧ d.y < size) ∧ d ∉ holes
      then (Board.marked size holes_num holes).adjCount d else 0 := by
  rw [Board.prepared_eq, Board.foldAdj_at]
  have hmark : ((Board.marked size holes_num holes).at d).is_hole = false ↔ d ∉ holes := by
    rw [Board.marked_at]
    by_cases h : d ∈ holes
    · simp [h]
    · simp [h]
  by_cases hin : d ∈ coordList size size
  · by_cases hh : d ∈ holes
    · rw [if_neg (by rintro ⟨_, h2⟩; exact (hmark.mp h2) hh),
        if_neg (by rintro ⟨_, h2⟩; exact h2 hh)]
      rw [Board.marked_at, if_pos hh]
    · rw [if_pos ⟨hin, hmark.mpr hh⟩, if_pos ⟨(mem_coordList size size d).mp hin, hh⟩]
  · rw [if_neg (by rintro ⟨h1, _⟩; exact hin h1),
      if_neg (by rintro ⟨h1, _⟩; exact hin ((mem_coordList size size d).mpr h1))]
    rw [Board.marked_at]
    by_cases hh : d ∈ holes
    · rw [if_pos hh]
    · rw [if_neg hh]

theorem HolesGenerator.mem_available_places (w h : Int) (skip_cell d : Coord) :
    d ∈ HolesGenerator.available_places w h skip_cell ↔
      ((0 ≤ d.x ∧ d.x < w ∧ 0 ≤ d.y ∧ d.y < h) ∧ d ≠ skip_cell) := by
  unfold HolesGenerator.available_places
  rw [List.mem_flatMap]
  constructor
  · rintro ⟨x, hx, hd⟩
    rw [List.mem_filterMap] at hd
    obtain ⟨y, hy, he⟩ := hd
    rw [List.mem_range] at hx hy
    by_cases hs : (⟨(x : Int), (y : Int)⟩ : Coord) = skip_cell
    · rw [if_pos hs] at he
      exact absurd he (by simp)
    · rw [if_neg hs] at he
      have he' : (⟨(x : Int), (y : Int)⟩ : Coord) = d := Option.some_injective _ he
      have hex : (x : Int) = d.x := congrArg Coord.x he'
      have hey : (y : Int) = d.y := congrArg Coord.y he'
      exact ⟨⟨by omega, by omega, by omega, by omega⟩, by rw [← he']; exact hs⟩
  · rintro ⟨⟨h1, h2, h3, h4⟩, hne⟩
    refine ⟨d.x.toNat, by rw [List.mem_range]; omega, ?_⟩
    rw [List.mem_filterMap]
    refine ⟨d.y.toNat, by rw [List.mem_range]; omega, ?_⟩
    have hx' : ((d.x.toNat : Int)) = d.x := by omega
    have hy' : ((d.y.toNat : Int)) = d.y := by omega
    have hde : (⟨(d.x.toNat : Int), (d.y.toNat : Int)⟩ : Coord) = d := by
      rw [hx', hy']
    rw [hde, if_neg hne]

/-- The in-bounds coordinates of a board, as a set. -/
def Board.inBoundsSet (b : Board) : Set Coord := {d | b.inBounds d}

/-- The in-bounds opened cells of a board, as a set. -/
def Board.openedSet (b : Board) : Set Coord :=
  {d | b.inBounds d ∧ (b.at d).is_opened = true}

/-- The in-bounds hole cells of a board, as a set. -/
def Board.holesSet (b : Board) : Set Coord :=
  {d | b.inBounds d ∧ (b.at d).is_hole = true}

theorem Board.inBoundsSet_eq (b : Board) : b.inBoundsSet = ↑b.allCoords := by
  ext d
  simp only [Board.inBoundsSet, Set.mem_setOf_eq, Finset.mem_coe, Board.mem_allCoords]

theorem Board.inBoundsSet_finite (b : Board) : b.inBoundsSet.Finite := by
  rw [Board.inBoundsSet_eq]
  exact Finset.finite_toSet _

theorem Board.openedSet_finite (b : Board) : b.openedSet.Finite :=
  Set.Finite.subset b.inBoundsSet_finite (fun d hd => hd.1)

theorem Board.holesSet_finite (b : Board) : b.holesSet.Finite :=
  Set.Finite.subset b.inBoundsSet_finite (fun d hd => hd.1)

theorem Board.allCoords_card (b : Board) :
    b.allCoords.card = b.width.toNat * b.height.toNat := by
  unfold Board.allCoords
  rw [Finset.card_image_of_injective, Finset.card_product, Finset.card_range,
    Finset.card_range]
  intro p q hpq
  simp only [Coord.mk.injEq] at hpq
  obtain ⟨h1, h2⟩ := hpq
  obtain ⟨p1, p2⟩ := p
  obtain ⟨q1, q2⟩ := q
  simp only at h1 h2
  simp only [Prod.mk.injEq]
  omega

theorem Board.inBoundsSet_ncard (b : Board) :
    b.inBoundsSet.ncard = b.width.toNat * b.height.toNat := by
  rw [Board.inBoundsSet_eq, Set.ncard_coe_Finset, Board.allCoords_card]

/-- Reachability from a single in-bounds seed stays in bounds. -/
theorem Board.reach_single_inBounds (b : Board) (c : Coord) (hc : b.inBounds c)
    {d : Coord} (hd : b.ReachFrom (fun e => e ∈ [c]) d) : b.inBounds d := by
  rcases Board.reach_mem_or_inBounds hd with h | h
  · rw [List.mem_singleton] at h
    rw [h]
    exact hc
  · exact h

/-- Reachability from a single non-hole seed only visits non-hole cells. -/
theorem Board.reach_single_nonhole (b : Board) (c : Coord)
    (hc : (b.at c).is_hole = false) {d : Coord}
    (hd : b.ReachFrom (fun e => e ∈ [c]) d) : (b.at d).is_hole = false := by
  induction hd with
  | seed e he =>
    rw [List.mem_singleton] at he
    rw [he]
    exact hc
  | step x d hx hz hadj hnh hop ih => exact hnh

/-- The state invariant maintained by the engine on every reachable board:
the board is square of side `size > 3`, there are exactly `holes_num`
holes, `cells_to_open` counts the still-closed safe cells
(`size^2 - holes_num - opened`), no opened cell is a hole, an in-play
status means at least one safe cell is still closed, and every opened
zero-count cell has all its in-bounds non-hole neighbors opened. -/
def Good (size holes_num : Int) (b : Board) : Prop :=
  3 < size ∧ 0 ≤ holes_num ∧
  b.width = size ∧ b.height = size ∧
  ((b.holesSet.ncard : Int) = holes_num) ∧
  b.cells_to_open = size * size - holes_num - (b.openedSet.ncard : Int) ∧
  (∀ d, b.inBounds d → (b.at d).is_opened = true → (b.at d).is_hole = false) ∧
  (b.status = GameStatus.IN_GAME → 0 < b.cells_to_open) ∧
  (∀ d, b.inBounds d → (b.at d).is_opened = true → (b.at d).holes_around = 0 →
    ∀ e, e ∈ b.get_adjacent_coords d → (b.at e).is_hole = false →
      (b.at e).is_opened = true)

theorem Board.click_on_hole_at (b : Board) (c : Coord)
    (h : (b.at c).is_hole = true) (d : Coord) :
    (b.click_on c).at d = b.at d := by
  rw [Board.click_on_hole b c h]
  rfl

/-- The invariant `Good` is preserved by clicking any in-bounds coordinate (whether or
not the game is still in play). -/
theorem Good.click (size holes_num : Int) (b : Board) (c : Coord)
    (hg : Good size holes_num b) (hc : b.inBounds c) :
    Good size holes_num (b.click_on c) := by
  obtain ⟨hsz, hnn, hw, hh, hholes, hctr, hnohole, hstat, hzc⟩ := hg
  by_cases hch : (b.at c).is_hole
  · -- clicking a hole: only the status changes
    rw [Board.click_on_hole b c hch]
    exact ⟨hsz, hnn, hw, hh, hholes, hctr, hnohole, by intro h; exact absurd h (by simp), hzc⟩
  · have hch' : (b.at c).is_hole = false := by simpa using hch
    rw [Board.click_on_safe b c hch']
    have hrun := Board.open_cells_loop_char b [c]
    obtain ⟨rw1, rh1, rhole, raround, ropen, rctr, rwin, rstat⟩ := hrun
    set bf := b.open_cells_loop [c] with hbf
    have hib : ∀ d, bf.inBounds d ↔ b.inBounds d := by
      intro d
      unfold Board.inBounds
      rw [rw1, rh1]
    have hadjf : ∀ d, bf.get_adjacent_coords d = b.get_adjacent_coords d := by
      intro d
      unfold Board.get_adjacent_coords
      rw [rw1, rh1]
    -- the reveal's newly opened cells are in-bounds non-hole cells
    have hnew_sub : b.newlySet [c] ⊆ b.openedSet ᶜ ∩ b.inBoundsSet := by
      rintro d ⟨h1, h2⟩
      constructor
      · intro hmem
        rw [hmem.2] at h2
        exact Bool.true_eq_false.mp h2
      · exact Board.reach_single_inBounds b c hc h1
    have hnew_inB : ∀ d ∈ b.newlySet [c], b.inBounds d := by
      rintro d ⟨h1, _⟩
      exact Board.reach_single_inBounds b c hc h1
    have hnew_nonhole : ∀ d ∈ b.newlySet [c], (b.at d).is_hole = false := by
      rintro d ⟨h1, _⟩
      exact Board.reach_single_nonhole b c hch' h1
    -- the opened set after the run splits as a disjoint union
    have hopen_split : bf.openedSet = b.openedSet ∪ b.newlySet [c] := by
      ext d
      constructor
      · rintro ⟨h1, h2⟩
        rw [hib d] at h1
        rcases (ropen d).mp h2 with h3 | h3
        · exact Or.inl ⟨h1, h3⟩
        · by_cases h4 : (b.at d).is_opened = true
          · exact Or.inl ⟨h1, h4⟩
          · exact Or.inr ⟨h3, by simpa using h4⟩
      · rintro (⟨h1, h2⟩ | ⟨h1, h2⟩)
        · exact ⟨(hib d).mpr h1, (ropen d).mpr (Or.inl h2)⟩
        · exact ⟨(hib d).mpr (hnew_inB d ⟨h1, h2⟩), (ropen d).mpr (Or.inr h1)⟩
    have hdisj : Disjoint b.openedSet (b.newlySet [c]) := by
      rw [Set.disjoint_left]
      rintro d ⟨_, h2⟩ ⟨_, h3⟩
      rw [h2] at h3
      exact Bool.true_eq_false.mp h3
    have hopen_card : (bf.openedSet.ncard : Int) =
        (b.openedSet.ncard : Int) + ((b.newlySet [c]).ncard : Int) := by
      rw [hopen_split]
      rw [Set.ncard_union_eq hdisj b.openedSet_finite (Board.newlySet_finite b [c])]
      push_cast
      ring
    refine ⟨hsz, hnn, rw1.trans hw, rh1.trans hh, ?_, ?_, ?_, ?_, ?_⟩
    · -- hole count unchanged
      have : bf.holesSet = b.holesSet := by
        ext d
        constructor
        · rintro ⟨h1, h2⟩
          rw [hib d] at h1
          rw [rhole d] at h2
          exact ⟨h1, h2⟩
        · rintro ⟨h1, h2⟩
          exact ⟨(hib d).mpr h1, by rw [rhole d]; exact h2⟩
      rw [this]
      exact hholes
    · rw [rctr, hctr, hopen_card]
      ring
    · intro d hd hop
      rw [rhole d]
      rw [hib d] at hd
      rcases (ropen d).mp hop with h1 | h1
      · exact hnohole d hd h1
      · by_cases h2 : (b.at d).is_opened = true
        · exact hnohole d hd h2
        · exact hnew_nonhole d ⟨h1, by simpa using h2⟩
    · -- in-play implies a positive counter
      intro hingame
      have hnwin : bf.status ≠ GameStatus.WIN := by
        rw [hingame]
        simp
      have h1 : ¬(b.status = GameStatus.WIN ∨
          (1 ≤ b.cells_to_open ∧ b.cells_to_open ≤ ((b.newlySet [c]).ncard : Int))) := by
        intro hcon
        exact hnwin (rwin.mpr hcon)
      push_neg at h1
      have hbstat : b.status = GameStatus.IN_GAME := by
        rcases rstat with h2 | h2
        · rw [← h2]
          exact hingame
        · exact absurd h2 hnwin
      have hpos := hstat hbstat
      rw [rctr]
      have h3 := h1.2 (by omega)
      omega
    · -- opened zero cells stay saturated
      intro d hd hop hz e he henh
      rw [raround d] at hz
      rw [rhole e] at henh
      rw [hib d] at hd
      rw [hadjf d] at he
      rw [ropen e]
      rcases (ropen d).mp hop with h1 | h1
      · -- the cell was already opened before the click
        exact Or.inl (hzc d hd h1 hz e he henh)
      · -- the cell was reached by this reveal: expand from it
        by_cases h2 : (b.at e).is_opened = true
        · exact Or.inl h2
        · exact Or.inr (Board.ReachFrom.step d e h1 hz he henh (by simpa using h2))

theorem Board.construct_ok (size holes_num : Int) (holes : List Coord) (fc : Coord)
    (h1 : SMALLEST_BOARD_SIZE < size)
    (h2 : holes_num < size ^ 2 - SMALLEST_BOARD_SIZE ^ 2)
    (h3 : 0 ≤ holes_num) :
    Board.construct size holes_num holes fc =
      Except.ok ((Board.prepared size holes_num holes).click_on fc) := by
  unfold Board.construct
  rw [if_neg (not_le.mpr h1), if_neg (not_le.mpr h2), if_neg (not_lt.mpr h3)]

/-- Construction succeeds exactly on the valid parameter range. -/
theorem Board.construct_ok_iff (size holes_num : Int) (holes : List Coord) (fc : Coord) :
    (∃ bb, Board.construct size holes_num holes fc = Except.ok bb) ↔
      (SMALLEST_BOARD_SIZE < size ∧ holes_num < size ^ 2 - SMALLEST_BOARD_SIZE ^ 2 ∧
        0 ≤ holes_num) := by
  constructor
  · rintro ⟨bb, hbb⟩
    unfold Board.construct at hbb
    by_cases h1 : size ≤ SMALLEST_BOARD_SIZE
    · rw [if_pos h1] at hbb
      exact absurd hbb (by simp)
    · rw [if_neg h1] at hbb
      by_cases h2 : size ^ 2 - SMALLEST_BOARD_SIZE ^ 2 ≤ holes_num
      · rw [if_pos h2] at hbb
        exact absurd hbb (by simp)
      · rw [if_neg h2] at hbb
        by_cases h3 : holes_num < 0
        · rw [if_pos h3] at hbb
          exact absurd hbb (by simp)
        · exact ⟨lt_of_not_le h1, lt_of_not_le h2, le_of_not_lt h3⟩
  · rintro ⟨h1, h2, h3⟩
    exact ⟨_, Board.construct_ok size holes_num holes fc h1 h2 h3⟩

theorem Good.prepared_board (size holes_num : Int) (holes : List Coord) (fc : Coord)
    (hsz : 3 < size) (hnn : 0 ≤ holes_num) (hless : holes_num < size ^ 2 - 9)
    (hsamp : IsSample (HolesGenerator.available_places size size fc)
      holes_num.toNat holes) :
    Good size holes_num (Board.prepared size holes_num holes) := by
  obtain ⟨hnd, hlen, hsub⟩ := hsamp
  obtain ⟨pw, ph, pst, pctr⟩ := Board.prepared_dims size holes_num holes
  have hop : (Board.prepared size holes_num holes).openedSet = ∅ := by
    ext d
    simp only [Set.mem_empty_iff_false, iff_false]
    rintro ⟨_, h2⟩
    rw [Board.prepared_unopened] at h2
    exact absurd h2 (by simp)
  refine ⟨hsz, hnn, pw, ph, ?_, ?_, ?_, ?_, ?_⟩
  · have hset : (Board.prepared size holes_num holes).holesSet = {d | d ∈ holes} := by
      ext d
      constructor
      · rintro ⟨h1, h2⟩
        exact (Board.prepared_hole size holes_num holes d).mp h2
      · intro hd
        have hav := hsub d hd
        rw [HolesGenerator.mem_available_places] at hav
        refine ⟨?_, (Board.prepared_hole size holes_num holes d).mpr hd⟩
        unfold Board.inBounds
        rw [pw, ph]
        exact hav.1
    have hcoe : {d | d ∈ holes} = (↑holes.toFinset : Set Coord) := by
      ext d
      simp
    rw [hset, hcoe, Set.ncard_coe_Finset, List.toFinset_card_of_nodup hnd, hlen]
    omega
  · rw [hop, pctr]
    simp
  · intro d _ hopd
    rw [Board.prepared_unopened] at hopd
    exact absurd hopd (by simp)
  · intro _
    rw [pctr]
    have hsq : size ^ 2 = size * size := by ring
    rw [hsq] at hless
    linarith
  · intro d _ hopd
    rw [Board.prepared_unopened] at hopd
    exact absurd hopd (by simp)

/-- Every reachable board satisfies the state invariant. -/
theorem ReachableFrom.good {size holes_num : Int} {holes : List Coord} {fc : Coord}
    {b : Board} (h : ReachableFrom size holes_num holes fc b) :
    Good size holes_num b := by
  induction h with
  | construct b hnn hx1 hx2 hy1 hy2 hsamp hok =>
    have hvalid := (Board.construct_ok_iff size holes_num holes fc).mp ⟨b, hok⟩
    have h3 : (3 : Int) < size := hvalid.1
    have h9 : holes_num < size ^ 2 - 9 := by
      have h2 := hvalid.2.1
      have hc9 : SMALLEST_BOARD_SIZE ^ 2 = (9 : Int) := by norm_num [SMALLEST_BOARD_SIZE]
      rw [hc9] at h2
      exact h2
    rw [Board.construct_ok size holes_num holes fc hvalid.1 hvalid.2.1 hvalid.2.2] at hok
    have hb : (Board.prepared size holes_num holes).click_on fc = b := by
      exact Except.ok.inj hok
    rw [← hb]
    apply Good.click size holes_num (Board.prepared size holes_num holes) fc
    · exact Good.prepared_board size holes_num holes fc h3 hnn h9
        ⟨hsamp.1, hsamp.2.1, hsamp.2.2⟩
    · unfold Board.inBounds
      obtain ⟨pw, ph, _, _⟩ := Board.prepared_dims size holes_num holes
      rw [pw, ph]
      exact ⟨hx1, hx2, hy1, hy2⟩
  | click b c hr hc ih => exact Good.click size holes_num b c ih hc

/-- Clicking via `click_on` never changes the board geometry, hole flags or
`holes_around` counts. -/
theorem Board.click_on_static (b : Board) (c d : Coord) :
    ((b.click_on c).at d).is_hole = (b.at d).is_hole ∧
    ((b.click_on c).at d).holes_around = (b.at d).holes_around ∧
    (b.click_on c).width = b.width ∧ (b.click_on c).height = b.height := by
  by_cases h : (b.at c).is_hole
  · rw [Board.click_on_hole b c h]
    exact ⟨rfl, rfl, rfl, rfl⟩
  · rw [Board.click_on_safe b c (by simpa using h)]
    obtain ⟨rw1, rh1, rhole, raround, _, _, _, _⟩ := Board.open_cells_loop_char b [c]
    exact ⟨rhole d, raround d, rw1, rh1⟩

/-- The in-bounds non-hole ("safe") cells of a board, as a set. -/
def Board.safeSet (b : Board) : Set Coord :=
  {d | b.inBounds d ∧ (b.at d).is_hole = false}

theorem Board.safeSet_finite (b : Board) : b.safeSet.Finite :=
  Set.Finite.subset b.inBoundsSet_finite (fun d hd => hd.1)

theorem Board.safe_holes_partition (b : Board) :
    b.safeSet.ncard + b.holesSet.ncard = b.inBoundsSet.ncard := by
  rw [← Set.ncard_union_eq ?hd b.safeSet_finite b.holesSet_finite]
  case hd =>
    rw [Set.disjoint_left]
    rintro d ⟨_, h2⟩ ⟨_, h3⟩
    rw [h2] at h3
    exact Bool.false_eq_true.mp h3
  congr 1
  ext d
  constructor
  · rintro (⟨h1, _⟩ | ⟨h1, _⟩) <;> exact h1
  · intro h1
    by_cases h2 : (b.at d).is_hole
    · exact Or.inr ⟨h1, h2⟩
    · exact Or.inl ⟨h1, by simpa using h2⟩

theorem Good.safe_ncard {size holes_num : Int} {b : Board}
    (hg : Good size holes_num b) : (b.safeSet.ncard : Int) = size * size - holes_num := by
  obtain ⟨hsz, hnn, hw, hh, hholes, _, _, _, _⟩ := hg
  have hpart := b.safe_holes_partition
  have hin : (b.inBoundsSet.ncard : Int) = size * size := by
    rw [b.inBoundsSet_ncard, hw, hh]
    have h1 : ((size.toNat : Int)) = size := by omega
    push_cast
    rw [h1]
  omega

theorem Good.opened_subset_safe {size holes_num : Int} {b : Board}
    (hg : Good size holes_num b) : b.openedSet ⊆ b.safeSet := by
  rintro d ⟨h1, h2⟩
  exact ⟨h1, hg.2.2.2.2.2.2.1 d h1 h2⟩

theorem Good.counter_eq {size holes_num : Int} {b : Board}
    (hg : Good size holes_num b) :
    b.cells_to_open = (b.safeSet.ncard : Int) - (b.openedSet.ncard : Int) := by
  have h1 := hg.safe_ncard
  have h2 := hg.2.2.2.2.2.1
  omega

theorem Good.counter_nonneg {size holes_num : Int} {b : Board}
    (hg : Good size holes_num b) : 0 ≤ b.cells_to_open := by
  rw [hg.counter_eq]
  have := Set.ncard_le_ncard hg.opened_subset_safe b.safeSet_finite
  omega

/-- Under the invariant, the counter is zero exactly when every safe cell
is opened. -/
theorem Good.counter_zero_iff {size holes_num : Int} {b : Board}
    (hg : Good size holes_num b) :
    (b.cells_to_open = 0 ↔
      ∀ d, b.inBounds d → (b.at d).is_hole = false → (b.at d).is_opened = true) := by
  rw [hg.counter_eq]
  constructor
  · intro h0 d hd hnh
    have hle := Set.ncard_le_ncard hg.opened_subset_safe b.safeSet_finite
    have heq : b.openedSet = b.safeSet := by
      apply Set.eq_of_subset_of_ncard_le hg.opened_subset_safe _ b.safeSet_finite
      omega
    have : d ∈ b.openedSet := by
      rw [heq]
      exact ⟨hd, hnh⟩
    exact this.2
  · intro hall
    have hsub : b.safeSet ⊆ b.openedSet := by
      rintro d ⟨h1, h2⟩
      exact ⟨h1, hall d h1 h2⟩
    have h1 := Set.ncard_le_ncard hsub b.openedSet_finite
    have h2 := Set.ncard_le_ncard hg.opened_subset_safe b.safeSet_finite
    omega

/-- Under the invariant, one reveal cannot open more cells than the
counter's worth of still-closed safe cells. -/
theorem Good.newly_le_counter {size holes_num : Int} {b : Board} {c : Coord}
    (hg : Good size holes_num b) (hc : b.inBounds c)
    (hch : (b.at c).is_hole = false) :
    ((b.newlySet [c]).ncard : Int) ≤ b.cells_to_open := by
  rw [hg.counter_eq]
  have hsub : b.newlySet [c] ∪ b.openedSet ⊆ b.safeSet := by
    rintro d (⟨h1, h2⟩ | hd)
    · exact ⟨Board.reach_single_inBounds b c hc h1,
        Board.reach_single_nonhole b c hch h1⟩
    · exact hg.opened_subset_safe hd
  have hdisj : Disjoint (b.newlySet [c]) b.openedSet := by
    rw [Set.disjoint_left]
    rintro d ⟨_, h2⟩ ⟨_, h3⟩
    rw [h3] at h2
    exact Bool.true_eq_false.mp h2
  have h1 := Set.ncard_le_ncard hsub b.safeSet_finite
  rw [Set.ncard_union_eq hdisj (Board.newlySet_finite b [c]) b.openedSet_finite] at h1
  omega

/-- The implemented reveal closure is contained in the spec's closure. -/
theorem Board.reachspec_of_reachfrom {b : Board} {c d : Coord}
    (hd : b.ReachFrom (fun e => e ∈ [c]) d) : b.ReachSpec c d := by
  induction hd with
  | seed e he =>
    rw [List.mem_singleton] at he
    rw [he]
    exact Board.ReachSpec.base
  | step x d hx hz hadj hnh hop ih => exact Board.ReachSpec.step x d ih hz hadj hnh

theorem Board.reachspec_inBounds {b : Board} {c d : Coord} (hc : b.inBounds c)
    (hd : b.ReachSpec c d) : b.inBounds d := by
  induction hd with
  | base => exact hc
  | step x d hx hz hadj hnh => exact Board.mem_get_adjacent_inBounds b x d hadj

theorem Board.reachspec_nonhole {b : Board} {c d : Coord}
    (hc : (b.at c).is_hole = false) (hd : b.ReachSpec c d) :
    (b.at d).is_hole = false := by
  induction hd with
  | base => exact hc
  | step x d hx hz hadj hnh => exact hnh

/-- On a board whose opened zero cells are saturated, the spec's closure
adds nothing beyond already-opened cells and the implemented closure. -/
theorem Board.reachfrom_of_reachspec {size holes_num : Int} {b : Board} {c d : Coord}
    (hg : Good size holes_num b) (hc : b.inBounds c)
    (hd : b.ReachSpec c d) :
    (b.at d).is_opened = true ∨ b.ReachFrom (fun e => e ∈ [c]) d := by
  induction hd with
  | base => exact Or.inr (Board.ReachFrom.seed c (by simp))
  | step x d hx hz hadj hnh ih =>
    rcases ih with h1 | h1
    · -- expansion from an already-opened zero cell: its neighbors are
      -- already opened by the invariant
      have hxin : b.inBounds x := Board.reachspec_inBounds hc hx
      exact Or.inl (hg.2.2.2.2.2.2.2.2 x hxin h1 hz d hadj hnh)
    · by_cases h2 : (b.at d).is_opened = true
      · exact Or.inl h2
      · exact Or.inr (Board.ReachFrom.step x d h1 hz hadj hnh (by simpa using h2))

/-- If the clicked cell has a nonzero count, the reveal visits only it. -/
theorem Board.reach_singleton_nonzero {b : Board} {c d : Coord}
    (hnz : (b.at c).holes_around ≠ 0)
    (hd : b.ReachFrom (fun e => e ∈ [c]) d) : d = c := by
  induction hd with
  | seed e he =>
    rw [List.mem_singleton] at he
    exact he
  | step x d hx hz hadj hnh hop ih =>
    rw [ih] at hz
    exact absurd hz hnz

theorem Board.neighbors_bounds : ∀ n ∈ Board.neighbors,
    -1 ≤ n.x ∧ n.x ≤ 1 ∧ -1 ≤ n.y ∧ n.y ≤ 1 ∧ ¬(n.x = 0 ∧ n.y = 0) := by decide

theorem Board.neighbors_nodup : Board.neighbors.Nodup := by decide

theorem Board.neighbors_complete : ∀ n : Coord,
    -1 ≤ n.x → n.x ≤ 1 → -1 ≤ n.y → n.y ≤ 1 → ¬(n.x = 0 ∧ n.y = 0) →
    n ∈ Board.neighbors := by
  intro n h1 h2 h3 h4 h5
  obtain ⟨nx, ny⟩ := n
  simp only at h1 h2 h3 h4 h5
  have hx : nx = -1 ∨ nx = 0 ∨ nx = 1 := by omega
  have hy : ny = -1 ∨ ny = 0 ∨ ny = 1 := by omega
  rcases hx with rfl | rfl | rfl <;> rcases hy with rfl | rfl | rfl
  · decide
  · decide
  · decide
  · decide
  · exact absurd ⟨rfl, rfl⟩ h5
  · decide
  · decide
  · decide
  · decide

/-- Adjacency in the words of the specification: two distinct cells whose
coordinates differ by at most one in each direction (orthogonal or
diagonal neighbors). -/
def isNeighbor (c d : Coord) : Bool :=
  decide (c ≠ d ∧ (c.x - d.x).natAbs ≤ 1 ∧ (c.y - d.y).natAbs ≤ 1)

theorem Board.mem_get_adjacent_iff (b : Board) (d e : Coord) :
    e ∈ b.get_adjacent_coords d ↔ (b.inBounds e ∧ isNeighbor d e = true) := by
  unfold Board.get_adjacent_coords
  rw [List.mem_filter, List.mem_map]
  constructor
  · rintro ⟨⟨n, hn, he⟩, hf⟩
    rw [decide_eq_true_iff] at hf
    have hex : n.x + d.x = e.x := congrArg Coord.x he
    have hey : n.y + d.y = e.y := congrArg Coord.y he
    obtain ⟨hb1, hb2, hb3, hb4, hb5⟩ := Board.neighbors_bounds n hn
    constructor
    · unfold Board.inBounds
      omega
    · unfold isNeighbor
      rw [decide_eq_true_iff]
      refine ⟨?_, by omega, by omega⟩
      intro hde
      have hx : d.x = e.x := congrArg Coord.x hde
      have hy : d.y = e.y := congrArg Coord.y hde
      exact hb5 ⟨by omega, by omega⟩
  · rintro ⟨hin, hnb⟩
    unfold isNeighbor at hnb
    rw [decide_eq_true_iff] at hnb
    obtain ⟨hne, h1, h2⟩ := hnb
    have hcomp : ¬(d.x = e.x ∧ d.y = e.y) := by
      rintro ⟨hx, hy⟩
      apply hne
      obtain ⟨d1, d2⟩ := d
      obtain ⟨e1, e2⟩ := e
      simp only at hx hy
      rw [hx, hy]
    refine ⟨⟨⟨e.x - d.x, e.y - d.y⟩, ?_, ?_⟩, ?_⟩
    · apply Board.neighbors_complete
      · simp only
        omega
      · simp only
        omega
      · simp only
        omega
      · simp only
        omega
      · simp only
        rintro ⟨hx, hy⟩
        exact hcomp ⟨by omega, by omega⟩
    · have hx : e.x - d.x + d.x = e.x := by ring
      have hy : e.y - d.y + d.y = e.y := by ring
      rw [hx, hy]
    · rw [decide_eq_true_iff]
      intro hcon
      unfold Board.inBounds at hin
      omega

theorem Board.get_adjacent_nodup (b : Board) (d : Coord) :
    (b.get_adjacent_coords d).Nodup := by
  unfold Board.get_adjacent_coords
  apply List.Nodup.filter
  apply List.Nodup.map
  · intro n1 n2 hmap
    have hx : n1.x + d.x = n2.x + d.x := congrArg Coord.x hmap
    have hy : n1.y + d.y = n2.y + d.y := congrArg Coord.y hmap
    obtain ⟨a1, a2⟩ := n1
    obtain ⟨b1, b2⟩ := n2
    simp only at hx hy
    simp only [Coord.mk.injEq]
    omega
  · exact Board.neighbors_nodup

/-- The code's adjacency count equals the specification's: the number of
in-bounds orthogonal-or-diagonal neighbors that are holes. -/
theorem Board.adjCount_eq_card (bb : Board) (d : Coord) :
    bb.adjCount d =
      (bb.allCoords.filter (fun e => isNeighbor d e && (bb.at e).is_hole)).card := by
  unfold Board.adjCount Board.get_adjacent_cells
  rw [List.countP_map]
  rw [List.countP_eq_length_filter]
  have hcomp : ((fun cl => Cell.is_hole cl) ∘ fun c => bb.at c) =
      (fun e => (bb.at e).is_hole) := rfl
  rw [hcomp]
  have hnd : ((bb.get_adjacent_coords d).filter
      (fun e => (bb.at e).is_hole)).Nodup :=
    List.Nodup.filter _ (Board.get_adjacent_nodup bb d)
  rw [← List.toFinset_card_of_nodup hnd]
  congr 1
  ext e
  rw [List.mem_toFinset, List.mem_filter, Finset.mem_filter,
    Board.mem_get_adjacent_iff, Board.mem_allCoords]
  constructor
  · rintro ⟨⟨h1, h2⟩, h3⟩
    refine ⟨h1, ?_⟩
    rw [Bool.and_eq_true]
    exact ⟨h2, h3⟩
  · rintro ⟨h1, h2⟩
    rw [Bool.and_eq_true] at h2
    exact ⟨⟨h1, h2.1⟩, h2.2⟩

theorem Board.prepared_hole_false (size holes_num : Int) (holes : List Coord)
    (d : Coord) (hd : d ∉ holes) :
    ((Board.prepared size holes_num holes).at d).is_hole = false := by
  have h := Board.prepared_hole size holes_num holes d
  cases hval : ((Board.prepared size holes_num holes).at d).is_hole
  · rfl
  · exact absurd (h.mp hval) hd

theorem Board.adjCount_zero_of_no_holes (bb : Board) (d : Coord)
    (h : ∀ e, (bb.at e).is_hole = false) : bb.adjCount d = 0 := by
  unfold Board.adjCount Board.get_adjacent_cells
  rw [List.countP_map]
  apply List.countP_eq_zero.mpr
  intro e _
  simp [h e]

/-- A concrete hole layout used in the concrete game runs below:
three holes walling off the corner cell (0,0) of a 4x4 board. -/
def holesListC : List Coord := [⟨0, 1⟩, ⟨1, 0⟩, ⟨1, 1⟩]

/-- The 4x4 board with holes `holesListC`, before the first click. -/
def boardPrep3 : Board := Board.prepared 4 3 holesListC

/-- The same board after the mandatory first click on (0,0): a reachable
in-play position (only (0,0) is opened; its count is 3). -/
def boardPlay3 : Board := boardPrep3.click_on ⟨0, 0⟩

/-- The board after then clicking the hole at (1,1): a reachable LOST
position. -/
def boardLost3 : Board := boardPlay3.click_on ⟨1, 1⟩

/-- The 4x4 board with no holes, before the first click. -/
def boardPrep0 : Board := Board.prepared 4 0 []

/-- The no-holes board after the first click: the reveal opens all 16
cells, so construction already ends in `WIN`. -/
def boardWon0 : Board := boardPrep0.click_on ⟨0, 0⟩

/-- A small explicit board whose every cell carries `holes_around = 1`:
on it a reveal opens exactly the clicked cell. -/
def boardNumbered : Board :=
  { width := 4, height := 4, status := GameStatus.IN_GAME, cells_to_open := 16,
    grid := fun _ => { holes_around := 1 } }

theorem boardPrep3_nonhole00 : (boardPrep3.at ⟨0, 0⟩).is_hole = false :=
  Board.prepared_hole_false 4 3 holesListC ⟨0, 0⟩ (by decide)

theorem boardPrep3_around00 : (boardPrep3.at ⟨0, 0⟩).holes_around = 3 := by
  unfold boardPrep3
  have h := Board.prepared_around 4 3 holesListC ⟨0, 0⟩
  rw [if_pos ⟨⟨by norm_num, by norm_num, by norm_num, by norm_num⟩, by decide⟩] at h
  rw [h]
  decide

theorem boardPrep3_newly :
    boardPrep3.newlySet [(⟨0, 0⟩ : Coord)] = {(⟨0, 0⟩ : Coord)} := by
  ext d
  constructor
  · rintro ⟨h1, _⟩
    have := Board.reach_singleton_nonzero (by rw [boardPrep3_around00]; norm_num) h1
    simpa using this
  · intro hd
    rw [Set.mem_singleton_iff] at hd
    subst hd
    exact ⟨Board.ReachFrom.seed _ (by simp), Board.prepared_unopened 4 3 holesListC _⟩

theorem boardPlay3_runOk : RunOk boardPrep3 [(⟨0, 0⟩ : Coord)] boardPlay3 := by
  have h : boardPlay3 = boardPrep3.open_cells_loop [⟨0, 0⟩] := by
    unfold boardPlay3
    exact Board.click_on_safe boardPrep3 ⟨0, 0⟩ boardPrep3_nonhole00
  rw [h]
  exact Board.open_cells_loop_char boardPrep3 [⟨0, 0⟩]

theorem boardPlay3_status : boardPlay3.status = GameStatus.IN_GAME := by
  obtain ⟨_, _, _, _, _, _, rwin, rstat⟩ := boardPlay3_runOk
  obtain ⟨_, _, pst, pctr⟩ := Board.prepared_dims 4 3 holesListC
  have hctr : boardPrep3.cells_to_open = 13 := by
    unfold boardPrep3
    rw [pctr]
    norm_num
  have hnwin : boardPlay3.status ≠ GameStatus.WIN := by
    intro hw
    rcases rwin.mp hw with h1 | ⟨h1, h2⟩
    · rw [show boardPrep3.status = GameStatus.IN_GAME from pst] at h1
      exact absurd h1 (by simp)
    · rw [boardPrep3_newly, Set.ncard_singleton, hctr] at h2
      norm_num at h2
  rcases rstat with h1 | h1
  · rw [h1]
    exact pst
  · exact absurd h1 hnwin

theorem boardPlay3_counter : boardPlay3.cells_to_open = 12 := by
  obtain ⟨_, _, _, _, _, rctr, _, _⟩ := boardPlay3_runOk
  obtain ⟨_, _, _, pctr⟩ := Board.prepared_dims 4 3 holesListC
  rw [rctr, boardPrep3_newly, Set.ncard_singleton]
  rw [show boardPrep3.cells_to_open = 13 from by unfold boardPrep3; rw [pctr]; norm_num]
  norm_num

theorem boardPlay3_width : boardPlay3.width = 4 := by
  obtain ⟨rw1, _, _, _⟩ := boardPlay3_runOk
  rw [rw1]
  exact (Board.prepared_dims 4 3 holesListC).1

theorem boardPlay3_height : boardPlay3.height = 4 := by
  obtain ⟨_, rh1, _, _⟩ := boardPlay3_runOk
  rw [rh1]
  exact (Board.prepared_dims 4 3 holesListC).2.1

theorem boardPlay3_hole (d : Coord) :
    (boardPlay3.at d).is_hole = (boardPrep3.at d).is_hole := by
  obtain ⟨_, _, rhole, _⟩ := boardPlay3_runOk
  exact rhole d

theorem boardPlay3_hole11 : (boardPlay3.at ⟨1, 1⟩).is_hole = true := by
  rw [boardPlay3_hole]
  exact (Board.prepared_hole 4 3 holesListC ⟨1, 1⟩).mpr (by decide)

theorem boardPlay3_hole33 : (boardPlay3.at ⟨3, 3⟩).is_hole = false := by
  rw [boardPlay3_hole]
  exact Board.prepared_hole_false 4 3 holesListC ⟨3, 3⟩ (by decide)

theorem boardPlay3_opened33 : (boardPlay3.at ⟨3, 3⟩).is_opened = false := by
  obtain ⟨_, _, _, _, ropen, _, _, _⟩ := boardPlay3_runOk
  cases hval : (boardPlay3.at ⟨3, 3⟩).is_opened
  · rfl
  · rcases (ropen ⟨3, 3⟩).mp hval with h1 | h1
    · unfold boardPrep3 at h1
      rw [Board.prepared_unopened 4 3 holesListC] at h1
      exact absurd h1 (by simp)
    · have := Board.reach_singleton_nonzero
        (by rw [boardPrep3_around00]; norm_num) h1
      exact absurd this (by decide)

theorem boardPlay3_sample :
    IsSample (HolesGenerator.available_places 4 4 ⟨0, 0⟩) (3 : Int).toNat holesListC := by
  decide

theorem boardPlay3_construct :
    Board.construct 4 3 holesListC ⟨0, 0⟩ = Except.ok boardPlay3 :=
  Board.construct_ok 4 3 holesListC ⟨0, 0⟩ (by norm_num [SMALLEST_BOARD_SIZE])
    (by norm_num [SMALLEST_BOARD_SIZE]) (by norm_num)

theorem boardPlay3_reachable : ReachableFrom 4 3 holesListC ⟨0, 0⟩ boardPlay3 :=
  ReachableFrom.construct boardPlay3 (by norm_num) (by norm_num) (by norm_num)
    (by norm_num) (by norm_num) boardPlay3_sample boardPlay3_construct

theorem boardPrep0_hole (d : Coord) : (boardPrep0.at d).is_hole = false :=
  Board.prepared_hole_false 4 0 [] d (by simp)

theorem boardPrep0_unopened (d : Coord) : (boardPrep0.at d).is_opened = false :=
  Board.prepared_unopened 4 0 [] d

theorem boardPrep0_around (d : Coord) : (boardPrep0.at d).holes_around = 0 := by
  unfold boardPrep0
  rw [Board.prepared_around 4 0 [] d]
  split
  · apply Board.adjCount_zero_of_no_holes
    intro e
    rw [Board.marked_at]
    simp
  · rfl

theorem boardPrep0_width : boardPrep0.width = 4 := (Board.prepared_dims 4 0 []).1

theorem boardPrep0_height : boardPrep0.height = 4 := (Board.prepared_dims 4 0 []).2.1

theorem boardPrep0_inBounds (d : Coord) :
    boardPrep0.inBounds d ↔ (0 ≤ d.x ∧ d.x < 4 ∧ 0 ≤ d.y ∧ d.y < 4) := by
  unfold Board.inBounds
  rw [boardPrep0_width, boardPrep0_height]

theorem boardPrep0_adjacent (c e : Coord) :
    e ∈ boardPrep0.get_adjacent_coords c ↔
      ((0 ≤ e.x ∧ e.x < 4 ∧ 0 ≤ e.y ∧ e.y < 4) ∧ isNeighbor c e = true) := by
  rw [Board.mem_get_adjacent_iff, boardPrep0_inBounds]

/-- On the no-holes board, the reveal from (0,0) visits every in-bounds
cell. -/
theorem boardPrep0_reach_all (d : Coord) (hd : boardPrep0.inBounds d) :
    boardPrep0.ReachFrom (fun e => e ∈ [(⟨0, 0⟩ : Coord)]) d := by
  have hstep : ∀ (c e : Coord),
      boardPrep0.ReachFrom (fun e => e ∈ [(⟨0, 0⟩ : Coord)]) c →
      ((0 ≤ e.x ∧ e.x < 4 ∧ 0 ≤ e.y ∧ e.y < 4) ∧ isNeighbor c e = true) →
      boardPrep0.ReachFrom (fun e => e ∈ [(⟨0, 0⟩ : Coord)]) e := by
    intro c e hc he
    exact Board.ReachFrom.step c e hc (boardPrep0_around c)
      ((boardPrep0_adjacent c e).mpr he) (boardPrep0_hole e) (boardPrep0_unopened e)
  have h00 : boardPrep0.ReachFrom (fun e => e ∈ [(⟨0, 0⟩ : Coord)]) ⟨0, 0⟩ :=
    Board.ReachFrom.seed _ (by simp)
  have h10 := hstep _ ⟨1, 0⟩ h00 (by refine ⟨?_, ?_⟩ <;> decide)
  have h01 := hstep _ ⟨0, 1⟩ h00 (by refine ⟨?_, ?_⟩ <;> decide)
  have h11 := hstep _ ⟨1, 1⟩ h00 (by refine ⟨?_, ?_⟩ <;> decide)
  have h20 := hstep _ ⟨2, 0⟩ h11 (by refine ⟨?_, ?_⟩ <;> decide)
  have h21 := hstep _ ⟨2, 1⟩ h11 (by refine ⟨?_, ?_⟩ <;> decide)
  have h22 := hstep _ ⟨2, 2⟩ h11 (by refine ⟨?_, ?_⟩ <;> decide)
  have h02 := hstep _ ⟨0, 2⟩ h11 (by refine ⟨?_, ?_⟩ <;> decide)
  have h12 := hstep _ ⟨1, 2⟩ h11 (by refine ⟨?_, ?_⟩ <;> decide)
  have h30 := hstep _ ⟨3, 0⟩ h21 (by refine ⟨?_, ?_⟩ <;> decide)
  have h31 := hstep _ ⟨3, 1⟩ h22 (by refine ⟨?_, ?_⟩ <;> decide)
  have h32 := hstep _ ⟨3, 2⟩ h22 (by refine ⟨?_, ?_⟩ <;> decide)
  have h33 := hstep _ ⟨3, 3⟩ h22 (by refine ⟨?_, ?_⟩ <;> decide)
  have h03 := hstep _ ⟨0, 3⟩ h12 (by refine ⟨?_, ?_⟩ <;> decide)
  have h13 := hstep _ ⟨1, 3⟩ h22 (by refine ⟨?_, ?_⟩ <;> decide)
  have h23 := hstep _ ⟨2, 3⟩ h22 (by refine ⟨?_, ?_⟩ <;> decide)
  rw [boardPrep0_inBounds] at hd
  obtain ⟨dx, dy⟩ := d
  simp only at hd
  have hx : dx = 0 ∨ dx = 1 ∨ dx = 2 ∨ dx = 3 := by omega
  have hy : dy = 0 ∨ dy = 1 ∨ dy = 2 ∨ dy = 3 := by omega
  rcases hx with rfl | rfl | rfl | rfl <;> rcases hy with rfl | rfl | rfl | rfl <;>
    assumption

theorem boardPrep0_newly : boardPrep0.newlySet [(⟨0, 0⟩ : Coord)] = boardPrep0.inBoundsSet := by
  ext d
  constructor
  · rintro ⟨h1, _⟩
    exact Board.reach_single_inBounds boardPrep0 ⟨0, 0⟩
      ((boardPrep0_inBounds ⟨0, 0⟩).mpr (by norm_num)) h1
  · intro hd
    exact ⟨boardPrep0_reach_all d hd, boardPrep0_unopened d⟩

theorem boardWon0_runOk : RunOk boardPrep0 [(⟨0, 0⟩ : Coord)] boardWon0 := by
  have h : boardWon0 = boardPrep0.open_cells_loop [⟨0, 0⟩] := by
    unfold boardWon0
    exact Board.click_on_safe boardPrep0 ⟨0, 0⟩ (boardPrep0_hole ⟨0, 0⟩)
  rw [h]
  exact Board.open_cells_loop_char boardPrep0 [⟨0, 0⟩]

theorem boardWon0_status : boardWon0.status = GameStatus.WIN := by
  obtain ⟨_, _, _, _, _, _, rwin, _⟩ := boardWon0_runOk
  apply rwin.mpr
  right
  have hctr : boardPrep0.cells_to_open = 16 := by
    have := (Board.prepared_dims 4 0 []).2.2.2
    unfold boardPrep0
    rw [this]
    norm_num
  have hcard : (boardPrep0.newlySet [(⟨0, 0⟩ : Coord)]).ncard = 16 := by
    rw [boardPrep0_newly, Board.inBoundsSet_ncard, boardPrep0_width, boardPrep0_height]
    decide
  rw [hctr, hcard]
  norm_num

theorem boardWon0_construct :
    Board.construct 4 0 [] ⟨0, 0⟩ = Except.ok boardWon0 :=
  Board.construct_ok 4 0 [] ⟨0, 0⟩ (by norm_num [SMALLEST_BOARD_SIZE])
    (by norm_num [SMALLEST_BOARD_SIZE]) (by norm_num)

theorem boardWon0_reachable : ReachableFrom 4 0 [] ⟨0, 0⟩ boardWon0 :=
  ReachableFrom.construct boardWon0 (by norm_num) (by norm_num) (by norm_num)
    (by norm_num) (by norm_num) (by constructor <;> simp [IsSample]) boardWon0_construct

theorem boardLost3_eq : boardLost3 = { boardPlay3 with status := GameStatus.LOST } := by
  unfold boardLost3
  exact Board.click_on_hole boardPlay3 ⟨1, 1⟩ boardPlay3_hole11

theorem boardLost3_status : boardLost3.status = GameStatus.LOST := by
  rw [boardLost3_eq]

theorem boardLost3_at (d : Coord) : boardLost3.at d = boardPlay3.at d := by
  rw [boardLost3_eq]
  rfl

theorem boardLost3_reachable : ReachableFrom 4 3 holesListC ⟨0, 0⟩ boardLost3 := by
  unfold boardLost3
  apply ReachableFrom.click boardPlay3 ⟨1, 1⟩ boardPlay3_reachable
  unfold Board.inBounds
  rw [boardPlay3_width, boardPlay3_height]
  norm_num

theorem boardLost3_click33 :
    ((boardLost3.click_on ⟨3, 3⟩).at ⟨3, 3⟩).is_opened = true := by
  have hnh : (boardLost3.at ⟨3, 3⟩).is_hole = false := by
    rw [boardLost3_at]
    exact boardPlay3_hole33
  rw [Board.click_on_safe boardLost3 ⟨3, 3⟩ hnh]
  obtain ⟨_, _, _, _, ropen, _, _, _⟩ := Board.open_cells_loop_char boardLost3 [⟨3, 3⟩]
  exact (ropen ⟨3, 3⟩).mpr (Or.inr (Board.ReachFrom.seed _ (by simp)))

/-- Two completed runs from the same start agree on the opened flags and
the final status. -/
theorem RunOk.unique (b : Board) (q : List Coord) (X Y : Board)
    (h1 : RunOk b q X) (h2 : RunOk b q Y) :
    (∀ d, (X.at d).is_opened = (Y.at d).is_opened) ∧ X.status = Y.status := by
  obtain ⟨_, _, _, _, xopen, _, xwin, xstat⟩ := h1
  obtain ⟨_, _, _, _, yopen, _, ywin, ystat⟩ := h2
  constructor
  · intro d
    have hiff : (X.at d).is_opened = true ↔ (Y.at d).is_opened = true := by
      rw [xopen d, yopen d]
    cases hx : (X.at d).is_opened
    · cases hy : (Y.at d).is_opened
      · rfl
      · rw [hx] at hiff
        exact absurd (hiff.mpr hy) (by simp)
    · exact (hiff.mp hx).symm
  · by_cases hC : (b.status = GameStatus.WIN ∨
        (1 ≤ b.cells_to_open ∧ b.cells_to_open ≤ ((b.newlySet q).ncard : Int)))
    · rw [xwin.mpr hC, ywin.mpr hC]
    · have hx : X.status = b.status := by
        rcases xstat with h | h
        · exact h
        · exact absurd (xwin.mp h) hC
      have hy : Y.status = b.status := by
        rcases ystat with h | h
        · exact h
        · exact absurd (ywin.mp h) hC
      rw [hx, hy]

/-- Claim C1: terminal-state monotonicity fails in the code.  The board
`boardLost3` is a reachable LOST position, yet a further `click_on` at the
in-bounds coordinate (3,3) flips that cell's `is_opened` flag from false
to true: `click_on` has no guard on `status`, so post-terminal clicks
mutate the board instead of being no-ops. -/
theorem claim_C1_terminal_not_monotone :
    ReachableFrom 4 3 holesListC ⟨0, 0⟩ boardLost3 ∧
    boardLost3.status = GameStatus.LOST ∧
    (boardLost3.at ⟨3, 3⟩).is_opened = false ∧
    ((boardLost3.click_on ⟨3, 3⟩).at ⟨3, 3⟩).is_opened = true :=
  ⟨boardLost3_reachable, boardLost3_status,
    by rw [boardLost3_at]; exact boardPlay3_opened33, boardLost3_click33⟩

/-- Claim C2 (amended): after a valid construction the status is `IN_GAME`
or `WIN` — never `LOST` — and the cell at the first coordinate is opened.
(The original claim's "status equals IN_PLAY" fails: with few enough
holes the mandatory first click can already open every safe cell and end
the game in `WIN`.) -/
theorem claim_C2_first_click_safety (size holes_num : Int) (holes : List Coord)
    (fc : Coord) (b : Board)
    (hsamp : IsSample (HolesGenerator.available_places size size fc)
      holes_num.toNat holes)
    (hok : Board.construct size holes_num holes fc = Except.ok b) :
    b.status ≠ GameStatus.LOST ∧
    (b.status = GameStatus.IN_GAME ∨ b.status = GameStatus.WIN) ∧
    (b.at fc).is_opened = true := by
  have hvalid := (Board.construct_ok_iff size holes_num holes fc).mp ⟨b, hok⟩
  rw [Board.construct_ok size holes_num holes fc hvalid.1 hvalid.2.1 hvalid.2.2] at hok
  have hb := Except.ok.inj hok
  rw [← hb]
  have hfc : fc ∉ holes := by
    intro hmem
    have h := hsamp.2.2 fc hmem
    rw [HolesGenerator.mem_available_places] at h
    exact h.2 rfl
  have hnh : ((Board.prepared size holes_num holes).at fc).is_hole = false :=
    Board.prepared_hole_false size holes_num holes fc hfc
  rw [Board.click_on_safe _ _ hnh]
  obtain ⟨_, _, _, _, ropen, _, _, rstat⟩ :=
    Board.open_cells_loop_char (Board.prepared size holes_num holes) [fc]
  obtain ⟨_, _, pst, _⟩ := Board.prepared_dims size holes_num holes
  refine ⟨?_, ?_, ?_⟩
  · rcases rstat with h | h
    · rw [h, pst]
      simp
    · rw [h]
      simp
  · rcases rstat with h | h
    · rw [h, pst]
      exact Or.inl rfl
    · exact Or.inr h
  · exact (ropen fc).mpr (Or.inr (Board.ReachFrom.seed _ (by simp)))

/-- Claim C2, counterexample to the original wording: the construction
`size = 4`, `hole_count = 0` (valid: `0 < 4^2 - 9`) with first click at
(0,0) succeeds with status `WIN`, not `IN_GAME` — the first click floods
the whole board. -/
theorem claim_C2_counterexample :
    (3 : Int) < 4 ∧ (0 : Int) < 4 ^ 2 - 9 ∧
    IsSample (HolesGenerator.available_places 4 4 ⟨0, 0⟩) (0 : Int).toNat [] ∧
    Board.construct 4 0 [] ⟨0, 0⟩ = Except.ok boardWon0 ∧
    boardWon0.status ≠ GameStatus.IN_GAME :=
  ⟨by norm_num, by norm_num, by constructor <;> simp [IsSample],
    boardWon0_construct, by rw [boardWon0_status]; simp⟩

/-- Claim C2, witness for the amended theorem at the concrete valid
construction `(4, 3, holesListC, (0,0))`. -/
theorem claim_C2_witness :
    IsSample (HolesGenerator.available_places 4 4 ⟨0, 0⟩) (3 : Int).toNat holesListC ∧
    (boardPlay3.status ≠ GameStatus.LOST ∧
      (boardPlay3.status = GameStatus.IN_GAME ∨ boardPlay3.status = GameStatus.WIN) ∧
      (boardPlay3.at ⟨0, 0⟩).is_opened = true) :=
  ⟨boardPlay3_sample,
    claim_C2_first_click_safety 4 3 holesListC ⟨0, 0⟩ boardPlay3
      boardPlay3_sample boardPlay3_construct⟩

/-- Claim C6, counterexample to the original wording: at `size = 4`,
`hole_count = -1` neither of the claim's two failure conditions holds
(`¬(4 ≤ 3)` and `¬(4^2 - 3^2 ≤ -1)`), yet construction fails and no
board is produced — the program's `random.sample` call raises
`ValueError` on a negative sample size — so construction does not
succeed on every input with `size > 3` and `hole_count < size^2 - 9`. -/
theorem claim_C6_counterexample :
    (∃ e, Board.construct 4 (-1) [] ⟨0, 0⟩ = Except.error e) ∧
    (¬∃ b, Board.construct 4 (-1) [] ⟨0, 0⟩ = Except.ok b) ∧
    ¬((4 : Int) ≤ 3 ∨ (4 : Int) ^ 2 - 3 ^ 2 ≤ -1) := by
  have he : Board.construct 4 (-1) [] ⟨0, 0⟩ =
      Except.error "sample larger than population or is negative" := by
    unfold Board.construct
    rw [if_neg (by norm_num [SMALLEST_BOARD_SIZE]),
      if_neg (by norm_num [SMALLEST_BOARD_SIZE]), if_pos (by norm_num)]
  refine ⟨⟨_, he⟩, ?_, ?_⟩
  · rintro ⟨b, hb⟩
    rw [he] at hb
    exact absurd hb (by simp)
  · push_neg
    constructor
    · norm_num
    · norm_num

/-- Claim C6 (amended): construction fails exactly when `size ≤ 3`
(board too small), or `size^2 - 3^2 ≤ hole_count` (too many holes), or
`hole_count < 0` (the sampling primitive rejects a negative sample
size); it succeeds and produces a board exactly on the complementary
range `size > 3 ∧ 0 ≤ hole_count < size^2 - 3^2`, and on failure no
board is produced. -/
theorem claim_C6_construct_iff (size holes_num : Int) (holes : List Coord)
    (fc : Coord) :
    ((∃ b, Board.construct size holes_num holes fc = Except.ok b) ↔
      ¬(size ≤ 3 ∨ size ^ 2 - 3 ^ 2 ≤ holes_num ∨ holes_num < 0)) ∧
    ((∃ e, Board.construct size holes_num holes fc = Except.error e) ↔
      (size ≤ 3 ∨ size ^ 2 - 3 ^ 2 ≤ holes_num ∨ holes_num < 0)) := by
  have hS : SMALLEST_BOARD_SIZE = (3 : Int) := rfl
  have h := Board.construct_ok_iff size holes_num holes fc
  rw [hS] at h
  constructor
  · rw [h]
    constructor
    · rintro ⟨h1, h2, h3⟩
      push_neg
      exact ⟨h1, h2, h3⟩
    · intro hcon
      push_neg at hcon
      exact ⟨hcon.1, hcon.2.1, hcon.2.2⟩
  · constructor
    · rintro ⟨e, he⟩
      by_cases h1 : size ≤ 3
      · exact Or.inl h1
      · by_cases h2 : size ^ 2 - 3 ^ 2 ≤ holes_num
        · exact Or.inr (Or.inl h2)
        · by_cases h3 : holes_num < 0
          · exact Or.inr (Or.inr h3)
          · exfalso
            have hok := Board.construct_ok size holes_num holes fc
              (by rw [hS]; omega) (by rw [hS]; exact lt_of_not_le h2)
              (le_of_not_lt h3)
            rw [hok] at he
            exact absurd he (by simp)
    · intro hcon
      unfold Board.construct
      by_cases h1 : size ≤ SMALLEST_BOARD_SIZE
      · exact ⟨_, by rw [if_pos h1]⟩
      · by_cases h2 : size ^ 2 - SMALLEST_BOARD_SIZE ^ 2 ≤ holes_num
        · exact ⟨_, by rw [if_neg h1, if_pos h2]⟩
        · have h3 : holes_num < 0 := by
            rw [hS] at h1 h2
            rcases hcon with h4 | h4 | h4
            · exact absurd h4 h1
            · exact absurd h4 h2
            · exact h4
          exact ⟨_, by rw [if_neg h1, if_neg h2, if_pos h3]⟩

/-- Claim C8: clicking a hole on an in-play board sets the status to
`LOST` and changes nothing else: the resulting board is the old board
with only the status replaced, so no cell and no counter changes and no
flood fill runs. -/
theorem claim_C8_loss_atomicity (b : Board) (c : Coord)
    (hplay : b.status = GameStatus.IN_GAME) (hh : (b.at c).is_hole = true) :
    b.click_on c = { b with status := GameStatus.LOST } ∧
    (b.click_on c).status = GameStatus.LOST ∧
    (∀ d, (b.click_on c).at d = b.at d) ∧
    (b.click_on c).cells_to_open = b.cells_to_open := by
  have h := Board.click_on_hole b c hh
  exact ⟨h, by rw [h], fun d => by rw [h]; rfl, by rw [h]⟩

/-- Claim C8, witness at the reachable in-play board `boardPlay3` and the
hole (1,1). -/
theorem claim_C8_witness :
    boardPlay3.click_on ⟨1, 1⟩ = { boardPlay3 with status := GameStatus.LOST } ∧
    (boardPlay3.click_on ⟨1, 1⟩).status = GameStatus.LOST ∧
    (∀ d, (boardPlay3.click_on ⟨1, 1⟩).at d = boardPlay3.at d) ∧
    (boardPlay3.click_on ⟨1, 1⟩).cells_to_open = boardPlay3.cells_to_open :=
  claim_C8_loss_atomicity boardPlay3 ⟨1, 1⟩ boardPlay3_status boardPlay3_hole11

/-- Claim C9: the reveal's result does not depend on the traversal order.
Any completed run of the worklist relation (which allows picking any
queued coordinate at each step) from the same in-bounds non-hole start
produces the same opened flags and final status as the implemented FIFO
loop, and so does the LIFO (depth-first) variant. -/
theorem claim_C9_order_independence (b : Board) (c : Coord) (b2 : Board)
    (hc : b.inBounds c) (hnh : (b.at c).is_hole = false)
    (hrun : Relation.ReflTransGen WorklistStep (b, [c]) (b2, [])) :
    ((∀ d, (b2.at d).is_opened = ((b.open_cells c).at d).is_opened) ∧
      b2.status = (b.open_cells c).status) ∧
    ((∀ d, ((b.open_cells_lifo [c]).at d).is_opened =
        ((b.open_cells c).at d).is_opened) ∧
      (b.open_cells_lifo [c]).status = (b.open_cells c).status) := by
  have h1 : RunOk b [c] b2 := worklist_run_char (b, [c]) (b2, []) hrun rfl
  have h2 : RunOk b [c] (b.open_cells c) := Board.open_cells_loop_char b [c]
  have h3 : RunOk b [c] (b.open_cells_lifo [c]) := Board.open_cells_lifo_char b [c]
  exact ⟨RunOk.unique b [c] b2 (b.open_cells c) h1 h2,
    RunOk.unique b [c] (b.open_cells_lifo [c]) (b.open_cells c) h3 h2⟩

/-- Claim C9, witness: a one-step run on the all-numbered board. -/
theorem claim_C9_witness :
    ((∀ d, (((boardNumbered.process_one ⟨2, 2⟩).1).at d).is_opened =
        ((boardNumbered.open_cells ⟨2, 2⟩).at d).is_opened) ∧
      ((boardNumbered.process_one ⟨2, 2⟩).1).status =
        (boardNumbered.open_cells ⟨2, 2⟩).status) ∧
    ((∀ d, ((boardNumbered.open_cells_lifo [⟨2, 2⟩]).at d).is_opened =
        ((boardNumbered.open_cells ⟨2, 2⟩).at d).is_opened) ∧
      (boardNumbered.open_cells_lifo [⟨2, 2⟩]).status =
        (boardNumbered.open_cells ⟨2, 2⟩).status) := by
  have hsnd : (boardNumbered.process_one ⟨2, 2⟩).2 = [] := by decide
  apply claim_C9_order_independence boardNumbered ⟨2, 2⟩
    ((boardNumbered.process_one ⟨2, 2⟩).1)
  · unfold Board.inBounds boardNumbered
    norm_num
  · rfl
  · apply Relation.ReflTransGen.single
    have hstep := WorklistStep.pick boardNumbered ⟨2, 2⟩ [] [] []
      (by rw [hsnd]; exact List.Perm.nil)
    exact hstep

/-- Claim C10: on every reachable board, `cells_to_open` equals
`width * height - hole_count` minus the number of opened cells, and in
particular it is never negative. -/
theorem claim_C10_counter_invariant (size holes_num : Int) (holes : List Coord)
    (fc : Coord) (b : Board)
    (hr : ReachableFrom size holes_num holes fc b) :
    b.cells_to_open =
      b.width * b.height - holes_num - (b.openedSet.ncard : Int) ∧
    0 ≤ b.cells_to_open := by
  have hg := hr.good
  have hnn := hg.counter_nonneg
  obtain ⟨_, _, hw, hh, _, hctr, _, _, _⟩ := hg
  exact ⟨by rw [hw, hh]; exact hctr, hnn⟩

/-- Claim C10, witness at the reachable board `boardWon0`. -/
theorem claim_C10_witness :
    boardWon0.cells_to_open =
      boardWon0.width * boardWon0.height - 0 - (boardWon0.openedSet.ncard : Int) ∧
    0 ≤ boardWon0.cells_to_open :=
  claim_C10_counter_invariant 4 0 [] ⟨0, 0⟩ boardWon0 boardWon0_reachable

/-- Claim C3: on a reachable in-play board, a click sets the status to
`WIN` exactly when the counter reaches zero, which happens exactly when
every safe cell ends opened; and the counter drops by exactly the number
of newly opened cells. -/
theorem claim_C3_win_exactness (size holes_num : Int) (holes : List Coord)
    (fc : Coord) (b : Board) (c : Coord)
    (hr : ReachableFrom size holes_num holes fc b)
    (hplay : b.status = GameStatus.IN_GAME) (hc : b.inBounds c) :
    ((b.click_on c).status = GameStatus.WIN ↔ (b.click_on c).cells_to_open = 0) ∧
    ((b.click_on c).cells_to_open = 0 ↔
      ∀ d, b.inBounds d → (b.at d).is_hole = false →
        ((b.click_on c).at d).is_opened = true) ∧
    (b.click_on c).cells_to_open =
      b.cells_to_open -
        (({d | ((b.click_on c).at d).is_opened = true ∧
            (b.at d).is_opened = false} : Set Coord).ncard : Int) := by
  have hg := hr.good
  have hg' := Good.click size holes_num b c hg hc
  have hpos : 0 < b.cells_to_open := hg.2.2.2.2.2.2.2.1 hplay
  have hB : ((b.click_on c).cells_to_open = 0 ↔
      ∀ d, b.inBounds d → (b.at d).is_hole = false →
        ((b.click_on c).at d).is_opened = true) := by
    rw [hg'.counter_zero_iff]
    constructor
    · intro h d hd hnh
      apply h d
      · unfold Board.inBounds at hd ⊢
        rw [(Board.click_on_static b c d).2.2.1, (Board.click_on_static b c d).2.2.2]
        exact hd
      · rw [(Board.click_on_static b c d).1]
        exact hnh
    · intro h d hd hnh
      apply h d
      · unfold Board.inBounds at hd ⊢
        rw [(Board.click_on_static b c d).2.2.1,
          (Board.click_on_static b c d).2.2.2] at hd
        exact hd
      · rw [(Board.click_on_static b c d).1] at hnh
        exact hnh
  refine ⟨?_, hB, ?_⟩
  · by_cases hh : (b.at c).is_hole
    · have he := Board.click_on_hole b c hh
      rw [he]
      constructor
      · intro h1
        exact absurd h1 (by simp)
      · intro h1
        have h2 : b.cells_to_open = 0 := h1
        omega
    · have hh' : (b.at c).is_hole = false := by simpa using hh
      rw [Board.click_on_safe b c hh']
      obtain ⟨_, _, _, _, _, rctr, rwin, _⟩ := Board.open_cells_loop_char b [c]
      have hle := hg.newly_le_counter hc hh'
      rw [rwin, rctr, hplay]
      constructor
      · rintro (h1 | ⟨h1, h2⟩)
        · exact absurd h1 (by simp)
        · omega
      · intro h1
        right
        constructor
        · omega
        · omega
  · by_cases hh : (b.at c).is_hole
    · have he := Board.click_on_hole b c hh
      have hset : ({d | ((b.click_on c).at d).is_opened = true ∧
          (b.at d).is_opened = false} : Set Coord) = ∅ := by
        ext d
        simp only [Set.mem_setOf_eq, Set.mem_empty_iff_false, iff_false]
        rintro ⟨h1, h2⟩
        have h1' : (b.at d).is_opened = true := by
          rw [he] at h1
          exact h1
        rw [h2] at h1'
        exact absurd h1' (by simp)
      rw [hset, he]
      simp
    · have hh' : (b.at c).is_hole = false := by simpa using hh
      rw [Board.click_on_safe b c hh']
      obtain ⟨_, _, _, _, ropen, rctr, _, _⟩ := Board.open_cells_loop_char b [c]
      have hset : ({d | ((b.open_cells_loop [c]).at d).is_opened = true ∧
          (b.at d).is_opened = false} : Set Coord) = b.newlySet [c] := by
        ext d
        constructor
        · rintro ⟨h1, h2⟩
          rcases (ropen d).mp h1 with h3 | h3
          · rw [h2] at h3
            exact absurd h3 (by simp)
          · exact ⟨h3, h2⟩
        · rintro ⟨h1, h2⟩
          exact ⟨(ropen d).mpr (Or.inr h1), h2⟩
      rw [rctr, hset]

/-- Claim C3, witness at the reachable in-play board `boardPlay3` and the
in-bounds click (2,2). -/
theorem claim_C3_witness :
    ((boardPlay3.click_on ⟨2, 2⟩).status = GameStatus.WIN ↔
      (boardPlay3.click_on ⟨2, 2⟩).cells_to_open = 0) ∧
    ((boardPlay3.click_on ⟨2, 2⟩).cells_to_open = 0 ↔
      ∀ d, boardPlay3.inBounds d → (boardPlay3.at d).is_hole = false →
        ((boardPlay3.click_on ⟨2, 2⟩).at d).is_opened = true) ∧
    (boardPlay3.click_on ⟨2, 2⟩).cells_to_open =
      boardPlay3.cells_to_open -
        (({d | ((boardPlay3.click_on ⟨2, 2⟩).at d).is_opened = true ∧
            (boardPlay3.at d).is_opened = false} : Set Coord).ncard : Int) := by
  apply claim_C3_win_exactness 4 3 holesListC ⟨0, 0⟩ boardPlay3 ⟨2, 2⟩
    boardPlay3_reachable boardPlay3_status
  unfold Board.inBounds
  rw [boardPlay3_width, boardPlay3_height]
  norm_num

/-- Claim C4: on a reachable in-play board, clicking an in-bounds
non-hole coordinate opens exactly the cells of the spec's flood-fill
closure (the least set containing the clicked coordinate and closed under
adding all in-bounds non-hole neighbors of members with zero count), in
addition to the already-opened cells; hole cells are never opened. -/
theorem claim_C4_flood_fill (size holes_num : Int) (holes : List Coord) (fc : Coord)
    (b : Board) (c : Coord)
    (hr : ReachableFrom size holes_num holes fc b)
    (hplay : b.status = GameStatus.IN_GAME)
    (hc : b.inBounds c) (hnh : (b.at c).is_hole = false) :
    (∀ d, ((b.click_on c).at d).is_opened = true ↔
      ((b.at d).is_opened = true ∨ b.ReachSpec c d)) ∧
    (∀ d, (b.at d).is_hole = true →
      ((b.click_on c).at d).is_opened = (b.at d).is_opened) := by
  have hg := hr.good
  rw [Board.click_on_safe b c hnh]
  obtain ⟨_, _, _, _, ropen, _, _, _⟩ := Board.open_cells_loop_char b [c]
  have hequiv : ∀ d, ((b.at d).is_opened = true ∨
      b.ReachFrom (fun e => e ∈ [c]) d) ↔
      ((b.at d).is_opened = true ∨ b.ReachSpec c d) := by
    intro d
    constructor
    · rintro (h | h)
      · exact Or.inl h
      · exact Or.inr (Board.reachspec_of_reachfrom h)
    · rintro (h | h)
      · exact Or.inl h
      · exact Board.reachfrom_of_reachspec hg hc h
  constructor
  · intro d
    rw [ropen d, hequiv d]
  · intro d hd
    cases hval : (b.at d).is_opened
    · cases hval2 : ((b.open_cells_loop [c]).at d).is_opened
      · rfl
      · rcases (ropen d).mp hval2 with h1 | h1
        · rw [hval] at h1
          exact absurd h1 (by simp)
        · have h2 := Board.reach_single_nonhole b c hnh h1
          rw [hd] at h2
          exact absurd h2 (by simp)
    · exact (ropen d).mpr (Or.inl hval)

/-- Claim C4, witness at the reachable in-play board `boardPlay3` and
the non-hole click (3,3). -/
theorem claim_C4_witness :
    (∀ d, ((boardPlay3.click_on ⟨3, 3⟩).at d).is_opened = true ↔
      ((boardPlay3.at d).is_opened = true ∨ boardPlay3.ReachSpec ⟨3, 3⟩ d)) ∧
    (∀ d, (boardPlay3.at d).is_hole = true →
      ((boardPlay3.click_on ⟨3, 3⟩).at d).is_opened = (boardPlay3.at d).is_opened) := by
  apply claim_C4_flood_fill 4 3 holesListC ⟨0, 0⟩ boardPlay3 ⟨3, 3⟩
    boardPlay3_reachable boardPlay3_status
  · unfold Board.inBounds
    rw [boardPlay3_width, boardPlay3_height]
    norm_num
  · exact boardPlay3_hole33

theorem Board.prepared_hole_marked (size holes_num : Int) (holes : List Coord)
    (e : Coord) :
    ((Board.prepared size holes_num holes).at e).is_hole =
      ((Board.marked size holes_num holes).at e).is_hole := by
  rw [Board.prepared_eq]
  exact (Board.foldAdj_hole_opened _ _ e).1

theorem Board.marked_width (size holes_num : Int) (holes : List Coord) :
    (Board.marked size holes_num holes).width = size :=
  (Board.generate_holes_dims holes _).1

theorem Board.marked_height (size holes_num : Int) (holes : List Coord) :
    (Board.marked size holes_num holes).height = size :=
  (Board.generate_holes_dims holes _).2.1

/-- On the freshly generated board, the stored `holes_around` of every
in-bounds non-hole cell is the number of its in-bounds orthogonal or
diagonal neighbors that are holes, and hole cells keep count zero. -/
theorem Board.prepared_adjacency (size holes_num : Int) (holes : List Coord)
    (d : Coord) (hd : 0 ≤ d.x ∧ d.x < size ∧ 0 ≤ d.y ∧ d.y < size) :
    (((Board.prepared size holes_num holes).at d).is_hole = false →
      ((Board.prepared size holes_num holes).at d).holes_around =
        ((Board.prepared size holes_num holes).allCoords.filter
          (fun e => isNeighbor d e &&
            ((Board.prepared size holes_num holes).at e).is_hole)).card) ∧
    (((Board.prepared size holes_num holes).at d).is_hole = true →
      ((Board.prepared size holes_num holes).at d).holes_around = 0) := by
  have hall : (Board.marked size holes_num holes).allCoords =
      (Board.prepared size holes_num holes).allCoords := by
    unfold Board.allCoords
    rw [Board.marked_width, Board.marked_height,
      (Board.prepared_dims size holes_num holes).1,
      (Board.prepared_dims size holes_num holes).2.1]
  have hfun : (fun e => isNeighbor d e &&
      ((Board.marked size holes_num holes).at e).is_hole) =
      (fun e => isNeighbor d e &&
        ((Board.prepared size holes_num holes).at e).is_hole) := by
    funext e
    rw [Board.prepared_hole_marked]
  constructor
  · intro hnh
    have hdm : d ∉ holes := by
      intro hmem
      have h1 := (Board.prepared_hole size holes_num holes d).mpr hmem
      rw [hnh] at h1
      exact absurd h1 (by simp)
    have haP := Board.prepared_around size holes_num holes d
    rw [if_pos ⟨hd, hdm⟩] at haP
    rw [haP, Board.adjCount_eq_card, hall]
    congr 1
    apply Finset.filter_congr
    intro e _
    rw [Board.prepared_hole_marked]
  · intro hhole
    have hdm : d ∈ holes := (Board.prepared_hole size holes_num holes d).mp hhole
    have haP := Board.prepared_around size holes_num holes d
    rw [if_neg (by rintro ⟨_, h2⟩; exact h2 hdm)] at haP
    exact haP

/-- Claim C5: after construction, the `holes_around` of every in-bounds
non-hole cell equals the exact number of its in-bounds orthogonal or
diagonal neighbors whose `is_hole` flag is true, while every hole cell
keeps `holes_around = 0`. -/
theorem claim_C5_adjacency (size holes_num : Int) (holes : List Coord) (fc : Coord)
    (b : Board)
    (hok : Board.construct size holes_num holes fc = Except.ok b) :
    ∀ d, b.inBounds d →
      ((b.at d).is_hole = false →
        (b.at d).holes_around =
          (b.allCoords.filter (fun e => isNeighbor d e && (b.at e).is_hole)).card) ∧
      ((b.at d).is_hole = true → (b.at d).holes_around = 0) := by
  have hvalid := (Board.construct_ok_iff size holes_num holes fc).mp ⟨b, hok⟩
  rw [Board.construct_ok size holes_num holes fc hvalid.1 hvalid.2.1 hvalid.2.2] at hok
  have hb := Except.ok.inj hok
  have hsw : b.width = (Board.prepared size holes_num holes).width := by
    rw [← hb]
    exact (Board.click_on_static (Board.prepared size holes_num holes) fc fc).2.2.1
  have hsh : b.height = (Board.prepared size holes_num holes).height := by
    rw [← hb]
    exact (Board.click_on_static (Board.prepared size holes_num holes) fc fc).2.2.2
  have hshole : ∀ e, (b.at e).is_hole =
      ((Board.prepared size holes_num holes).at e).is_hole := by
    intro e
    rw [← hb]
    exact (Board.click_on_static (Board.prepared size holes_num holes) fc e).1
  have hsaround : ∀ e, (b.at e).holes_around =
      ((Board.prepared size holes_num holes).at e).holes_around := by
    intro e
    rw [← hb]
    exact (Board.click_on_static (Board.prepared size holes_num holes) fc e).2.1
  have hall : b.allCoords = (Board.prepared size holes_num holes).allCoords := by
    unfold Board.allCoords
    rw [hsw, hsh]
  have hfun2 : ∀ d, (fun e => isNeighbor d e && (b.at e).is_hole) =
      (fun e => isNeighbor d e &&
        ((Board.prepared size holes_num holes).at e).is_hole) := by
    intro d
    funext e
    rw [hshole e]
  intro d hd
  have hdb : 0 ≤ d.x ∧ d.x < size ∧ 0 ≤ d.y ∧ d.y < size := by
    unfold Board.inBounds at hd
    rw [hsw, (Board.prepared_dims size holes_num holes).1] at hd
    rw [hsh, (Board.prepared_dims size holes_num holes).2.1] at hd
    exact hd
  obtain ⟨hP1, hP2⟩ := Board.prepared_adjacency size holes_num holes d hdb
  constructor
  · intro hnh
    rw [hshole d] at hnh
    rw [hsaround d, hP1 hnh, hall]
    congr 1
    apply Finset.filter_congr
    intro e _
    rw [hshole e]
  · intro hhole
    rw [hshole d] at hhole
    rw [hsaround d]
    exact hP2 hhole

/-- Claim C5, witness at the concrete constructed board `boardPlay3` and
the cell (2,2): the conclusion instantiated by the theorem. -/
theorem claim_C5_witness :
    ((boardPlay3.at ⟨2, 2⟩).is_hole = false →
      (boardPlay3.at ⟨2, 2⟩).holes_around =
        (boardPlay3.allCoords.filter
          (fun e => isNeighbor ⟨2, 2⟩ e && (boardPlay3.at e).is_hole)).card) ∧
    ((boardPlay3.at ⟨2, 2⟩).is_hole = true →
      (boardPlay3.at ⟨2, 2⟩).holes_around = 0) := by
  apply claim_C5_adjacency 4 3 holesListC ⟨0, 0⟩ boardPlay3 boardPlay3_construct
  unfold Board.inBounds
  rw [boardPlay3_width, boardPlay3_height]
  norm_num

/-- Claim C7: on a valid construction, the (modelled) generator output is
exactly `hole_count` distinct in-bounds coordinates, none equal to the
protected first coordinate; the resulting board has exactly `hole_count`
hole cells and the first coordinate's cell is not a hole. -/
theorem claim_C7_hole_placement (size holes_num : Int) (holes : List Coord)
    (fc : Coord) (b : Board) (hnn : 0 ≤ holes_num)
    (hsamp : IsSample (HolesGenerator.available_places size size fc)
      holes_num.toNat holes)
    (hok : Board.construct size holes_num holes fc = Except.ok b) :
    ((holes.length : Int) = holes_num ∧ holes.Nodup ∧
      (∀ c ∈ holes, (0 ≤ c.x ∧ c.x < size ∧ 0 ≤ c.y ∧ c.y < size) ∧ c ≠ fc)) ∧
    ((b.holesSet.ncard : Int) = holes_num ∧ (b.at fc).is_hole = false) := by
  have hvalid := (Board.construct_ok_iff size holes_num holes fc).mp ⟨b, hok⟩
  rw [Board.construct_ok size holes_num holes fc hvalid.1 hvalid.2.1 hvalid.2.2] at hok
  have hb := Except.ok.inj hok
  have h9 : holes_num < size ^ 2 - 9 := by
    have h2 := hvalid.2.1
    have hc9 : SMALLEST_BOARD_SIZE ^ 2 = (9 : Int) := by norm_num [SMALLEST_BOARD_SIZE]
    rw [hc9] at h2
    exact h2
  have hgp := Good.prepared_board size holes_num holes fc hvalid.1 hnn h9 hsamp
  refine ⟨⟨?_, hsamp.1, ?_⟩, ?_, ?_⟩
  · have := hsamp.2.1
    omega
  · intro c hcmem
    have h := hsamp.2.2 c hcmem
    rw [HolesGenerator.mem_available_places] at h
    exact h
  · have hset : b.holesSet = (Board.prepared size holes_num holes).holesSet := by
      ext d
      have hst := Board.click_on_static (Board.prepared size holes_num holes) fc d
      constructor
      · rintro ⟨h1, h2⟩
        rw [← hb] at h1 h2
        rw [hst.1] at h2
        refine ⟨?_, h2⟩
        unfold Board.inBounds at h1 ⊢
        rw [hst.2.2.1, hst.2.2.2] at h1
        exact h1
      · rintro ⟨h1, h2⟩
        rw [← hb]
        rw [← hst.1] at h2
        refine ⟨?_, h2⟩
        unfold Board.inBounds at h1 ⊢
        rw [hst.2.2.1, hst.2.2.2]
        exact h1
    rw [hset]
    exact hgp.2.2.2.2.1
  · have hfc : fc ∉ holes := by
      intro hmem
      have h := hsamp.2.2 fc hmem
      rw [HolesGenerator.mem_available_places] at h
      exact h.2 rfl
    rw [← hb, (Board.click_on_static (Board.prepared size holes_num holes) fc fc).1]
    exact Board.prepared_hole_false size holes_num holes fc hfc

/-- Claim C7, witness at the concrete valid construction
`(4, 3, holesListC, (0,0))`. -/
theorem claim_C7_witness :
    (((holesListC.length : Int) = 3 ∧ holesListC.Nodup ∧
      (∀ c ∈ holesListC, (0 ≤ c.x ∧ c.x < 4 ∧ 0 ≤ c.y ∧ c.y < 4) ∧
        c ≠ (⟨0, 0⟩ : Coord))) ∧
     ((boardPlay3.holesSet.ncard : Int) = 3 ∧
      (boardPlay3.at ⟨0, 0⟩).is_hole = false)) :=
  claim_C7_hole_placement 4 3 holesListC ⟨0, 0⟩ boardPlay3 (by norm_num)
    boardPlay3_sample boardPlay3_construct
